import Mathlib

/-!
# Reeves: verification of the indexing / retrieval core

A shallow embedding of `src/lib.rs` of the `typesearch.rs` (Reeves) repository.

Modelling conventions:
* `u64` ids are `Nat` (the source reserves id ranges by plain addition on a
  monotone counter and comments that the counter cannot realistically wrap).
* The sled trees are typed maps: a serialized posting set becomes
  `Option (Finset Nat)` (`none` = key absent from the tree, which is distinct
  from a key holding the empty set), the `fn` tree becomes
  `Nat → Option FnDetail`, and the `crate` tree becomes
  `String → Option (String × List Nat)`.  The bincode serialization layer is
  elided.
* A Rust `panic!` / `unwrap` / `expect` / failed `assert!` is modelled by the
  operation returning `none`; fallible operations return `Option`.
* Where the source iterates a `HashSet` in unspecified order and the order is
  later fixed by an explicit sort (or does not matter), the embedding picks the
  ascending enumeration of the `Finset`; this is one refinement of the
  nondeterministic source.
* The meilisearch fuzzy-text service is external; `search` takes the service's
  reply as oracle functions `String → List String`.
-/

namespace Reeves

/-- `FUZZY_SEARCH_LIMIT` from src/lib.rs. -/
def FUZZY_SEARCH_LIMIT : Nat := 100

/-- `MAX_RESULTS` from src/lib.rs. -/
def MAX_RESULTS : Nat := 500

/-- `NIL_PARAMS` from src/lib.rs: the sentinel param key for zero-argument
functions. -/
def NIL_PARAMS : String := "<NOARGS>"

/-- `FnDetail` from reeves-types, as used by src/lib.rs (which reads and
writes a `krate` field). -/
structure FnDetail where
  krate : String
  params : List String
  ret : String
  s : String
deriving DecidableEq, Repr

/-- The sled database: the `next_fn_id` meta key plus the four trees
(`fn`, `param`, `ret`, `crate`). -/
structure Db where
  next_fn_id : Nat
  fnT : Nat → Option FnDetail
  paramT : String → Option (Finset Nat)
  retT : String → Option (Finset Nat)
  crateT : String → Option (String × List Nat)

/-- `open_db` on a fresh directory: empty trees, counter initialised to 0. -/
def emptyDb : Db :=
  { next_fn_id := 0
    fnT := fun _ => none
    paramT := fun _ => none
    retT := fun _ => none
    crateT := fun _ => none }

/-- Point update of a keyed map (a sled `insert` / `remove`). -/
def upd {α β : Type} [DecidableEq α] (f : α → β) (k : α) (v : β) : α → β :=
  fun k2 => if k2 = k then v else f k2

/-- The param keys a detail is posted under: its `params`, or the `<NOARGS>`
sentinel when `params` is empty (`add_crate` and `purge_crate` both do this
substitution). -/
def effParams (d : FnDetail) : List String :=
  if d.params = [] then [NIL_PARAMS] else d.params

/-- The ret key a detail is posted under. -/
def retKeys (d : FnDetail) : List String := [d.ret]

/-- Id assignment of `add_crate`: detail `i` of the list receives id
`start + i` (the source iterates `fndetails.iter().enumerate()`). -/
def assignIds (start : Nat) : List FnDetail → List (Nat × FnDetail)
  | [] => []
  | d :: rest => (start, d) :: assignIds (start + 1) rest

/-- The set of freshly assigned ids to be unioned into the posting list of
key `k` (the `param_sets` / `ret_sets` precomputation of `add_crate`,
read off pointwise). -/
def postingOf (keysOf : FnDetail → List String) (assigned : List (Nat × FnDetail))
    (k : String) : Finset Nat :=
  ((assigned.filter (fun p => k ∈ keysOf p.2)).map Prod.fst).toFinset

/-- The transaction body of `add_crate` on one posting tree: for every key
that received fresh ids, read the existing set (empty if the key is absent),
union the fresh ids in, and write the key back. -/
def bulkInsert (keysOf : FnDetail → List String) (assigned : List (Nat × FnDetail))
    (f : String → Option (Finset Nat)) : String → Option (Finset Nat) :=
  fun k =>
    if assigned.any (fun p => k ∈ keysOf p.2) then
      some (((f k).getD ∅) ∪ postingOf keysOf assigned k)
    else f k

/-- `add_crate` from src/lib.rs: reserve `fndetails.length` fresh ids from the
counter, then in one transaction union the ids into the `param` and `ret`
postings, store each detail in the `fn` tree, and store the crate record. -/
def add_crate (db : Db) (name version : String) (fndetails : List FnDetail) : Db :=
  let start_fn_id := db.next_fn_id
  let assigned := assignIds start_fn_id fndetails
  { next_fn_id := start_fn_id + fndetails.length
    fnT := fun id =>
      match List.lookup id assigned with
      | some d => some d
      | none => db.fnT id
    paramT := bulkInsert effParams assigned db.paramT
    retT := bulkInsert retKeys assigned db.retT
    crateT := upd db.crateT name (some (version, assigned.map Prod.fst)) }

/-- The param-tree part of one `purge_crate` loop iteration: for each param
key named by the detail, read the set (empty if absent), remove the fn id
(which may not be present if the signature repeats a type), and write the
(possibly empty) set back under the same key. -/
def purgeParams (pt : String → Option (Finset Nat)) (fn_id : Nat) :
    List String → String → Option (Finset Nat)
  | [] => pt
  | param :: rest =>
    purgeParams (upd pt param (some (((pt param).getD ∅).erase fn_id))) fn_id rest

/-- One iteration of the `purge_crate` loop over `(fn_id, fndetail)`:
update the param tree, then remove the id from the ret posting.
The source `assert!`s that the id was present in the ret posting;
a failed assert is `none`. -/
def purgeOne (st : (String → Option (Finset Nat)) × (String → Option (Finset Nat)))
    (p : Nat × FnDetail) :
    Option ((String → Option (Finset Nat)) × (String → Option (Finset Nat))) :=
  let pt2 := purgeParams st.1 p.1 (effParams p.2)
  let ret_set := (st.2 p.2.ret).getD ∅
  if p.1 ∈ ret_set then
    some (pt2, upd st.2 p.2.ret (some (ret_set.erase p.1)))
  else none

/-- The `purge_crate` loop over all owned `(fn_id, fndetail)` pairs. -/
def purgePostings
    (st : (String → Option (Finset Nat)) × (String → Option (Finset Nat))) :
    List (Nat × FnDetail) →
    Option ((String → Option (Finset Nat)) × (String → Option (Finset Nat)))
  | [] => some st
  | p :: rest =>
    match purgeOne st p with
    | none => none
    | some st2 => purgePostings st2 rest

/-- `purge_crate` collects the owned details first:
`fn_tree.remove(id).unwrap().unwrap()` panics (`none`) on a dangling id. -/
def fetchPurge (db : Db) : List Nat → Option (List (Nat × FnDetail))
  | [] => some []
  | id :: rest =>
    match db.fnT id, fetchPurge db rest with
    | some d, some ps => some ((id, d) :: ps)
    | _, _ => none

/-- `purge_crate` from src/lib.rs: if the crate record is absent, no-op;
otherwise remove the crate record, remove every owned detail from the `fn`
tree, and strip the owned ids from the `param` and `ret` postings named by
each detail. -/
def purge_crate (db : Db) (name : String) : Option Db :=
  match db.crateT name with
  | none => some db
  | some (_version, fn_ids) =>
    match fetchPurge db fn_ids with
    | none => none
    | some fndetails =>
      match purgePostings (db.paramT, db.retT) fndetails with
      | none => none
      | some st =>
        some { next_fn_id := db.next_fn_id
               fnT := fun id => if id ∈ fn_ids then none else db.fnT id
               paramT := st.1
               retT := st.2
               crateT := upd db.crateT name none }

/-- `save_analysis` from src/lib.rs: purge then add. -/
def save_analysis (db : Db) (name version : String) (fndetails : List FnDetail) :
    Option Db :=
  (purge_crate db name).map (fun db2 => add_crate db2 name version fndetails)

/-- `has_crate` from src/lib.rs. -/
def has_crate (db : Db) (name version : String) : Bool :=
  match db.crateT name with
  | some (v, _) => v = version
  | none => false

/-! ## The search engine (`search` in src/lib.rs)

A candidate column is the pair of the posting tree it reads (`&param_tree` or
`&ret_tree` in the source) and the ranked fuzzy hit list for one query token. -/

/-- A column of `candidate_types`: the posting tree to read and the ranked
candidate type strings. -/
abbrev Column := (String → Option (Finset Nat)) × List String

/-- Union of the postings of a list of candidate types.  A candidate with no
entry in the tree hits
`expect("candidate type did not already have an entry in db")`, i.e. panics
(`none`). -/
def unionPostings (tree : String → Option (Finset Nat)) :
    List String → Option (Finset Nat)
  | [] => some ∅
  | ct :: rest =>
    match tree ct with
    | none => none
    | some s => (unionPostings tree rest).map (fun acc => s ∪ acc)

/-- The "column set" at radius `i`: union of the postings of the top
`min(i, |hits|)` candidates of the column. -/
def colSet (c : Column) (i : Nat) : Option (Finset Nat) :=
  unionPostings c.1 (c.2.take (min i c.2.length))

/-- All column sets at radius `i`. -/
def columnSets : List Column → Nat → Option (List (Finset Nat))
  | [], _ => some []
  | c :: rest, i =>
    match colSet c i, columnSets rest i with
    | some s, some l => some (s :: l)
    | _, _ => none

/-- The candidate fn-id set of one iteration: the intersection of all column
sets.  With no columns the source hits
`expect("unexpectedly ran out of fn ids")` (`none`). -/
def iterationIds (candidate_types : List Column) (i : Nat) : Option (Finset Nat) :=
  match columnSets candidate_types i with
  | none => none
  | some [] => none
  | some (s0 :: rest) => some (rest.foldl (fun a b => a ∩ b) s0)

/-- Accumulator of the tier loop: the emitted id list, its set mirror
(`fn_ids_set`), and the tier index ranges. -/
structure LoopState where
  fn_ids : List Nat
  fn_ids_set : Finset Nat
  ranges : List (Nat × Nat)
deriving DecidableEq

/-- One tier append: the ids of the iteration not yet emitted (the source
collects a `HashSet` difference in arbitrary order; the embedding enumerates
it ascending) are appended to `fn_ids` and to the `fn_ids_set` mirror, and
their index range is recorded. -/
def pushTier (st : LoopState) (ifnids : Finset Nat) : LoopState :=
  { fn_ids := st.fn_ids ++ (ifnids \ st.fn_ids_set).sort (· ≤ ·)
    fn_ids_set := st.fn_ids_set ∪ ((ifnids \ st.fn_ids_set).sort (· ≤ ·)).toFinset
    ranges := st.ranges ++
      [(st.fn_ids.length,
        st.fn_ids.length + ((ifnids \ st.fn_ids_set).sort (· ≤ ·)).length)] }

/-- The tier loop body of `search`: per radius `i`, intersect the column sets,
append the new tier, and break once `MAX_RESULTS` ids have been emitted. -/
def searchLoop (candidate_types : List Column) :
    List Nat → LoopState → Option LoopState
  | [], st => some st
  | i :: rest, st =>
    match iterationIds candidate_types i with
    | none => none
    | some ifnids =>
      if MAX_RESULTS ≤ (pushTier st ifnids).fn_ids.length then some (pushTier st ifnids)
      else searchLoop candidate_types rest (pushTier st ifnids)

/-- `max_candidate_depth`: `.map(|(_, ct)| ct.len()).max().unwrap_or(0)`. -/
def searchDepth (candidate_types : List Column) : Nat :=
  (candidate_types.map (fun c => c.2.length)).foldl max 0

/-- The whole tier loop of `search`.  The source iterates
`for i in 1..max_candidate_depth`, which in Rust excludes the upper bound:
the radii visited are `1, …, max_candidate_depth - 1`. -/
def searchEmit (candidate_types : List Column) : Option LoopState :=
  searchLoop candidate_types (List.range' 1 (searchDepth candidate_types - 1))
    { fn_ids := [], fn_ids_set := ∅, ranges := [] }

/-- `ranges.pop(); ranges.push(range.start..end)`: clamp the last tier to the
truncated total length `e`. -/
def adjustRanges (ranges : List (Nat × Nat)) (e : Nat) : List (Nat × Nat) :=
  match ranges.getLast? with
  | none => ranges
  | some last => ranges.dropLast ++ [(last.1, e)]

/-- Fetch the details of the emitted ids:
`fn_tree.get(..).unwrap().unwrap()` panics (`none`) on a dangling id. -/
def fetchDetails (db : Db) : List Nat → Option (List FnDetail)
  | [] => some []
  | id :: rest =>
    match db.fnT id, fetchDetails db rest with
    | some d, some ds => some (d :: ds)
    | _, _ => none

/-- The comparator of the per-tier sort: `(krate, s)` lexicographically. -/
def fdLE (fd1 fd2 : FnDetail) : Prop :=
  fd1.krate < fd2.krate ∨ (fd1.krate = fd2.krate ∧ fd1.s ≤ fd2.s)

instance : DecidableRel fdLE := fun fd1 fd2 =>
  inferInstanceAs (Decidable (fd1.krate < fd2.krate ∨ (fd1.krate = fd2.krate ∧ fd1.s ≤ fd2.s)))

instance : IsTrans FnDetail fdLE where
  trans := by
    intro a b c hab hbc
    unfold fdLE at *
    rcases hab with h1 | ⟨h1, h1s⟩ <;> rcases hbc with h2 | ⟨h2, h2s⟩
    · exact Or.inl (lt_trans h1 h2)
    · exact Or.inl (h2 ▸ h1)
    · exact Or.inl (h1 ▸ h2)
    · exact Or.inr ⟨h1.trans h2, le_trans h1s h2s⟩

instance : IsTotal FnDetail fdLE where
  total := by
    intro a b
    unfold fdLE
    rcases lt_trichotomy a.krate b.krate with h | h | h
    · exact Or.inl (Or.inl h)
    · rcases le_total a.s b.s with hs | hs
      · exact Or.inl (Or.inr ⟨h, hs⟩)
      · exact Or.inr (Or.inr ⟨h.symm, hs⟩)
    · exact Or.inr (Or.inl h)

/-- The invariant of the tier loop: every recorded range is well-formed
(start ≤ stop ≤ emitted length, start below `MAX_RESULTS`), consecutive
ranges tile the emitted prefix (each stop is the next start, the first start
is 0, the last stop is the emitted length). -/
def LoopInv (st : LoopState) : Prop :=
  (∀ r ∈ st.ranges, r.1 ≤ r.2 ∧ r.2 ≤ st.fn_ids.length ∧ r.1 < MAX_RESULTS) ∧
  List.Chain' (fun a b : Nat × Nat => a.2 = b.1) st.ranges ∧
  (∀ l, st.ranges.getLast? = some l → l.2 = st.fn_ids.length) ∧
  (st.ranges = [] → st.fn_ids = []) ∧
  (∀ h0, st.ranges.head? = some h0 → h0.1 = 0)

/-- `ret[range].sort_by(..)`: sort the slice `[r.1, r.2)` of the result list
in place (a stable sort; the embedding uses insertion sort). -/
def sortRange (l : List FnDetail) (r : Nat × Nat) : List FnDetail :=
  l.take r.1 ++ List.insertionSort fdLE ((l.drop r.1).take (r.2 - r.1)) ++ l.drop r.2

/-- The pure tail of `search`, after the fuzzy service calls: run the tier
loop over the candidate columns, truncate to `MAX_RESULTS`, fetch the
details, and sort each tier by `(krate, s)`. -/
def searchWithCandidates (db : Db) (candidate_types : List Column) :
    Option (List FnDetail) :=
  match searchEmit candidate_types with
  | none => none
  | some st =>
    match fetchDetails db (st.fn_ids.take (min st.fn_ids.length MAX_RESULTS)) with
    | none => none
    | some fndetails =>
      some ((adjustRanges st.ranges (min st.fn_ids.length MAX_RESULTS)).foldl
        sortRange fndetails)

/-- The candidate columns built from the query: the `ret` column first (when
a ret query is present), then one `param` column per param query.  A present
but empty `params_search` is replaced by `["<NOARGS>"]`.  `fuzzyRet` and
`fuzzyParam` are the replies of the external fuzzy index for the `ret_types`
and `param_types` indexes. -/
def searchCols (db : Db) (fuzzyRet fuzzyParam : String → List String)
    (params_search : Option (List String)) (ret_search : Option String) :
    List Column :=
  (match ret_search with
   | some rq => [((db.retT, fuzzyRet rq) : Column)]
   | none => []) ++
  (match params_search with
   | some ps =>
     (if ps.isEmpty then [NIL_PARAMS] else ps).map
       (fun p => ((db.paramT, fuzzyParam p) : Column))
   | none => [])

/-- `search` from src/lib.rs, with the fuzzy service abstracted as oracles. -/
def search (db : Db) (fuzzyRet fuzzyParam : String → List String)
    (params_search : Option (List String)) (ret_search : Option String) :
    Option (List FnDetail) :=
  searchWithCandidates db (searchCols db fuzzyRet fuzzyParam params_search ret_search)

/-! ## Operation sequences on the store

`add_crate` / `purge_crate` / `save_analysis` are the mutating operations; a
run threads the store through a list of them, stopping at the first panic. -/

/-- A mutating store operation. -/
inductive Op where
  | add (name version : String) (details : List FnDetail)
  | purge (name : String)
  | save (name version : String) (details : List FnDetail)

/-- Apply one operation. -/
def applyOp (db : Db) : Op → Option Db
  | .add n v D => some (add_crate db n v D)
  | .purge n => purge_crate db n
  | .save n v D => save_analysis db n v D

/-- Run a sequence of operations. -/
def runOps (db : Db) : List Op → Option Db
  | [] => some db
  | op :: rest =>
    match applyOp db op with
    | none => none
    | some db2 => runOps db2 rest

/-- The fn ids an operation assigns, computed from the state it runs in
(`purge_crate` preserves the counter, so `save` assigns from the current
counter). -/
def opAssigned (db : Db) : Op → List Nat
  | .add _ _ D => (assignIds db.next_fn_id D).map Prod.fst
  | .purge _ => []
  | .save _ _ D => (assignIds db.next_fn_id D).map Prod.fst

/-- Every fn id assigned over a run. -/
def runAssigned (db : Db) : List Op → List Nat
  | [] => []
  | op :: rest =>
    opAssigned db op ++
      (match applyOp db op with
       | none => []
       | some db2 => runAssigned db2 rest)

/-! ## The signature extractor (`analyze_crate_path` in src/lib.rs)

The rust-analyzer semantic library is external: the embedding keeps the
control flow and failure modes of `analyze_crate_path` and
`discover_crate_import_name` and abstracts the library behind an environment
record.  A Rust `panic!` / `unwrap` / failed `assert_eq!` is `none`. -/

/-- A cargo target's kind; the source only distinguishes `TargetKind::Lib`. -/
inductive TargetKind where
  | lib
  | other
deriving DecidableEq

/-- One cargo package: name, version, workspace membership, and its targets
as `(target name, kind)` pairs. -/
structure PackageData where
  name : String
  version : String
  is_member : Bool
  targets : List (String × TargetKind)

/-- The cargo workspace read from the manifest. -/
structure CargoWorkspaceData where
  packages : List PackageData

/-- `name.replace('-', "_")` (the lib target name → import name
convention). -/
def dashToUnderscore (s : String) : String :=
  String.mk (s.toList.map (fun c => if c = '-' then '_' else c))

/-- `discover_crate_import_name` from src/lib.rs: `assert_eq!` that exactly
one workspace member and exactly one lib target exist (a failed assert
panics, i.e. `none`), and return `(package name, import name, version)`. -/
def discover_crate_import_name (ws : CargoWorkspaceData) :
    Option (String × String × String) :=
  match ws.packages.filter (fun pd => pd.is_member) with
  | [m] =>
    match m.targets.filter (fun t => t.2 = TargetKind.lib) with
    | [t] => some (m.name, dashToUnderscore t.1, m.version)
    | _ => none
  | _ => none

/-- The environment `analyze_crate_path` runs in.  `manifest` is the result
of `ProjectManifest::discover_single` + `ProjectWorkspace::load` + the
`Cargo` match (`none` = any of those panicked); `load_workspace_ok` is
whether `load_workspace_at(..).unwrap()` succeeds; `krates` lists the crates
of the semantic database as `(display name, extracted FnDetails)` — the
per-item extraction itself is rust-analyzer territory and is abstracted. -/
structure AnalyzeEnv where
  path_is_dir : Bool
  load_workspace_ok : Bool
  manifest : Option CargoWorkspaceData
  krates : List (String × List FnDetail)

/-- `analyze_crate_path` from src/lib.rs: panics (`none`) when the path is
not a directory, when the semantic database fails to load, when the manifest
is not a single-package / single-lib-target cargo workspace, or when no crate
in the semantic database matches the import name; otherwise returns
`(pkg_name, pkg_version, fndetails)` of the first matching crate. -/
def analyze_crate_path (env : AnalyzeEnv) : Option (String × String × List FnDetail) :=
  if env.path_is_dir = false then none
  else if env.load_workspace_ok = false then none
  else
    match env.manifest with
    | none => none
    | some ws =>
      match discover_crate_import_name ws with
      | none => none
      | some (krate_name, krate_import_name, krate_version) =>
        match env.krates.find? (fun k => k.1 = krate_import_name) with
        | some k => some (krate_name, krate_version, k.2)
        | none => none

/-! ## The type tokenizer (`tokenize_type` in `load_text_search`)

`tokenize_type` surrounds each of `< > [ ] &` with spaces, then collapses
runs of spaces by replacing `"  "` with `" "` until a fixpoint.  The
embedding works on `List Char`; the fixpoint loop is realised with a fuel
argument (`collapseFuel_eq_squeezeSpaces` below proves that a fuel of the
list length always reaches the fixpoint, so the fueled function is the loop's
semantics). -/

/-- `str::replace` of a single character by a string, on char lists. -/
def replaceChar (c : Char) (r : List Char) : List Char → List Char
  | [] => []
  | d :: rest => if d = c then r ++ replaceChar c r rest else d :: replaceChar c r rest

/-- The five replacements of `tokenize_type`, in source order:
`<`, `>`, `[`, `]`, `&` each become the character surrounded by spaces. -/
def expandSpecials (s : List Char) : List Char :=
  replaceChar '&' [' ', '&', ' ']
    (replaceChar ']' [' ', ']', ' ']
      (replaceChar '[' [' ', '[', ' ']
        (replaceChar '>' [' ', '>', ' ']
          (replaceChar '<' [' ', '<', ' '] s))))

/-- One pass of `s.replace("  ", " ")`: scan left to right, replace each
non-overlapping pair of spaces by one space. -/
def replaceDoubleSpace : List Char → List Char
  | [] => []
  | [c] => [c]
  | c :: d :: rest =>
    if c = ' ' ∧ d = ' ' then ' ' :: replaceDoubleSpace rest
    else c :: replaceDoubleSpace (d :: rest)

/-- The `loop { ... }` of `tokenize_type`: repeat `replaceDoubleSpace` until
it makes no change, with an explicit fuel bound. -/
def collapseSpacesFuel : Nat → List Char → List Char
  | 0, s => s
  | Nat.succ n, s =>
    if replaceDoubleSpace s = s then s
    else collapseSpacesFuel n (replaceDoubleSpace s)

/-- `tokenize_type` from src/lib.rs.  The fuel bound (the expanded list's
length) always suffices to reach the fixpoint of the loop, because every
non-fixpoint pass strictly shortens the list (`collapseFuel_eq_squeezeSpaces`
below). -/
def tokenize_type (s : String) : String :=
  String.mk (collapseSpacesFuel (expandSpecials s.toList).length (expandSpecials s.toList))

/-- Proof device: collapse each run of spaces to a single space in one
structural pass.  `squeezeSpaces` is the fixpoint that `tokenize_type`'s
collapse loop reaches. -/
def squeezeSpaces : List Char → List Char
  | [] => []
  | [c] => [c]
  | c :: d :: rest =>
    if c = ' ' ∧ d = ' ' then squeezeSpaces (d :: rest)
    else c :: squeezeSpaces (d :: rest)

/-- Proof device: space squeezer with a "previous emitted char was a space"
flag, which makes squeezing compositional under append. -/
def sq (b : Bool) : List Char → List Char
  | [] => []
  | c :: rest =>
    if c = ' ' then (if b then sq true rest else ' ' :: sq true rest)
    else c :: sq false rest

/-- Whether the last char of `b ++ l`-so-far is a space (`b` for empty). -/
def afterSp (b : Bool) : List Char → Bool
  | [] => b
  | c :: rest => afterSp (c = ' ') rest

/-- The characters `tokenize_type` surrounds with spaces. -/
def isSpecialChar (c : Char) : Bool :=
  c = '<' || c = '>' || c = '[' || c = ']' || c = '&'

/-- Proof device: the fused tokenizer — `sq b ∘ expandSpecials` computed in
one pass, tracking the previous-char-was-space flag. -/
def tok (b : Bool) : List Char → List Char
  | [] => []
  | d :: rest =>
    if isSpecialChar d then (if b then [d, ' '] else [' ', d, ' ']) ++ tok true rest
    else if d = ' ' then (if b then [] else [' ']) ++ tok true rest
    else d :: tok false rest

/-! ## Concrete fixtures -/

/-- A one-parameter function detail. -/
def fdU32 : FnDetail :=
  { krate := "c", params := ["u32"], ret := "u32", s := "fn c::f(u32) -> u32" }

/-- A store holding exactly `fdU32` under id 0: one `param` key `"u32"` and
one `ret` key `"u32"`, each with posting `{0}`. -/
def dbOne : Db :=
  { next_fn_id := 1
    fnT := fun id => if id = 0 then some fdU32 else none
    paramT := fun k => if k = "u32" then some {0} else none
    retT := fun k => if k = "u32" then some {0} else none
    crateT := fun n => if n = "c" then some ("1.0", [0]) else none }

/-- A fuzzy oracle that answers every query with the single hit `"u32"`. -/
def fuzzyU32 : String → List String := fun _ => ["u32"]

/-- A store whose `param` tree has a key `"U"` but no key `"T"`. -/
def dbNoT : Db :=
  { next_fn_id := 1
    fnT := fun id => if id = 0 then some fdU32 else none
    paramT := fun k => if k = "U" then some {0} else none
    retT := fun _ => none
    crateT := fun _ => none }

/-- A store whose `ret` tree has the key `"u32"` and whose `param` tree has
the key `"U"` but no key `"T"`. -/
def dbRetNoT : Db :=
  { next_fn_id := 1
    fnT := fun id => if id = 0 then some fdU32 else none
    paramT := fun k => if k = "U" then some {0} else none
    retT := fun k => if k = "u32" then some {0} else none
    crateT := fun _ => none }

/-- A well-formed single-package, single-lib-target workspace. -/
def pkgOk : PackageData :=
  { name := "my-lib", version := "1.0.0", is_member := true
    targets := [("my-lib", TargetKind.lib)] }

/-- Successful environment: the semantic database knows a crate whose display
name is the import name `my_lib`. -/
def envOk : AnalyzeEnv :=
  { path_is_dir := true, load_workspace_ok := true
    manifest := some { packages := [pkgOk] }
    krates := [("my_lib", [])] }

/-- Failure mode: the source tree is a workspace with two member packages. -/
def envTwoMembers : AnalyzeEnv :=
  { envOk with
    manifest := some { packages :=
      [pkgOk,
       { name := "other", version := "0.1.0", is_member := true
         targets := [("other", TargetKind.lib)] }] } }

/-- Failure mode: the single package has no library target. -/
def envNoLibTarget : AnalyzeEnv :=
  { envOk with
    manifest := some { packages :=
      [{ name := "my-lib", version := "1.0.0", is_member := true
         targets := [("my-lib", TargetKind.other)] }] } }

/-- Failure mode: the semantic database fails to load. -/
def envLoadFails : AnalyzeEnv := { envOk with load_workspace_ok := false }

/-- Failure mode: no crate in the semantic database matches the import
name. -/
def envCrateNotFound : AnalyzeEnv := { envOk with krates := [("unrelated", [])] }

/-- A zero-argument function detail. -/
def fdNoArgs : FnDetail :=
  { krate := "c", params := [], ret := "u32", s := "fn c::answer() -> u32" }

/-- A concrete operation sequence: ingest, purge, re-ingest. -/
def opsReuse : List Op :=
  [Op.add "c" "1.0" [fdU32, fdNoArgs], Op.purge "c", Op.add "c" "1.1" [fdU32]]

/-- The store after `save_analysis(c, 1.0, [fdU32])` on the empty store. -/
def dbSave1 : Db := (save_analysis emptyDb "c" "1.0" [fdU32]).getD emptyDb

/-- The store after a second `save_analysis(c, 1.1, [fdNoArgs])`. -/
def dbSave2 : Db := (save_analysis dbSave1 "c" "1.1" [fdNoArgs]).getD emptyDb

/-!
# Theorems
-/

/-! ## C1 -/

/-- C1: the claim says the tier loop runs the radius `i` from 1 to `D`
inclusive, and that with `D = 1` one iteration still runs and emits the
intersection of the rank-1 postings.  The code iterates `for i in
1..max_candidate_depth`, which excludes `D`: on a store holding one function
with param type `"u32"` and ret type `"u32"`, with the fuzzy index returning
exactly one candidate (`"u32"`) for each column (`D = 1`), the loop body
never runs and `search` returns `some []` — even though the rank-1
intersection (`iterationIds .. 1`) is the non-empty `{0}`. -/
theorem search_omits_final_fuzzy_radius :
    search dbOne fuzzyU32 fuzzyU32 (some ["u32"]) (some "u32") = some [] ∧
    iterationIds (searchCols dbOne fuzzyU32 fuzzyU32 (some ["u32"]) (some "u32")) 1 =
      some {0} := by
  constructor
  · rfl
  · decide

/-! ## C2 -/

/-- C2, counterexample: the claim says a candidate type with no entry in the
keyspace is treated as an empty posting set and search completes normally.
On a store with no `param` key `"T"`, a query whose fuzzy expansion contains
`"T"` (with a second candidate so that the tier loop runs at all) makes
`search` hit `expect("candidate type did not already have an entry in db")`:
the embedding returns `none` (a panic), not a normal completion. -/
theorem search_missing_candidate_key_crashes_cex :
    search dbNoT fuzzyU32 (fun _ => ["T", "U"]) (some ["T"]) none = none := by
  rfl

theorem get_mem_take {α : Type} (l : List α) (n j : Nat) (hj : j < l.length)
    (hjn : j < n) : l.get ⟨j, hj⟩ ∈ l.take n := by
  induction l generalizing n j with
  | nil => cases hj
  | cons a rest ih =>
    cases n with
    | zero => omega
    | succ m =>
      cases j with
      | zero => exact List.mem_cons_self _ _
      | succ k =>
        have hk : k < rest.length := by
          simp only [List.length_cons] at hj; omega
        show rest.get ⟨k, hk⟩ ∈ a :: rest.take m
        exact List.mem_cons_of_mem _ (ih m k hk (by omega))

theorem unionPostings_none (t : String → Option (Finset Nat)) :
    ∀ (l : List String) (ct : String), ct ∈ l → t ct = none →
      unionPostings t l = none := by
  intro l
  induction l with
  | nil => intro ct h; cases h
  | cons a rest ih =>
    intro ct hmem hnone
    rcases List.mem_cons.mp hmem with he | hr
    · subst he
      rw [unionPostings, hnone]
    · rw [unionPostings]
      cases ha : t a with
      | none => rfl
      | some s =>
        rw [ih ct hr hnone]
        rfl

theorem colSet_missing (c : Column) (i j : Nat) (hj : j < c.2.length)
    (hij : j < i) (hnone : c.1 (c.2.get ⟨j, hj⟩) = none) :
    colSet c i = none := by
  unfold colSet
  exact unionPostings_none c.1 _ _
    (get_mem_take c.2 (min i c.2.length) j hj (by omega)) hnone

theorem columnSets_none :
    ∀ (cols : List Column) (i : Nat) (c : Column), c ∈ cols →
      colSet c i = none → columnSets cols i = none := by
  intro cols
  induction cols with
  | nil => intro i c h; cases h
  | cons a rest ih =>
    intro i c hmem hnone
    rcases List.mem_cons.mp hmem with he | hr
    · subst he
      rw [columnSets, hnone]
    · rw [columnSets]
      cases ha : colSet a i with
      | none => rfl
      | some s => rw [ih i c hr hnone]

theorem iterationIds_missing (cols : List Column) (i : Nat) (c : Column)
    (j : Nat) (hj : j < c.2.length) (hc : c ∈ cols) (hij : j < i)
    (hnone : c.1 (c.2.get ⟨j, hj⟩) = none) :
    iterationIds cols i = none := by
  rw [iterationIds, columnSets_none cols i c hc (colSet_missing c i j hj hij hnone)]

theorem searchLoop_complete (cols : List Column) :
    ∀ (iters : List Nat) (st st' : LoopState),
      searchLoop cols iters st = some st' →
      MAX_RESULTS ≤ st'.fn_ids.length ∨ ∀ i ∈ iters, iterationIds cols i ≠ none := by
  intro iters
  induction iters with
  | nil =>
    intro st st' h
    exact Or.inr (by intro i hi; cases hi)
  | cons i rest ih =>
    intro st st' h
    rw [searchLoop] at h
    cases hit : iterationIds cols i with
    | none =>
      simp only [hit] at h
      exact Option.noConfusion h
    | some ifnids =>
      simp only [hit] at h
      by_cases hbr : MAX_RESULTS ≤ (pushTier st ifnids).fn_ids.length
      · rw [if_pos hbr] at h
        left
        rw [← Option.some.inj h]
        exact hbr
      · rw [if_neg hbr] at h
        rcases ih (pushTier st ifnids) st' h with hl | hr
        · exact Or.inl hl
        · right
          intro i' hi'
          rcases List.mem_cons.mp hi' with he | hmem
          · subst he
            rw [hit]
            intro hcon
            exact Option.noConfusion hcon
          · exact hr i' hmem

/-- C2, amended: a candidate type with no entry in its keyspace is not
treated as an empty posting set.  (a) Any tier-loop iteration whose radius
reaches the missing candidate — any column of either keyspace, candidate at
any rank `j < i` — panics (`iterationIds` is `none`).  (b) If any column's
rank-1 candidate is missing and the tier loop runs at all (`2 ≤ searchDepth`,
given the `1..D` iteration), the whole search panics (`none`).  (c)
Conversely, a search that completes normally has every column's rank-1
candidate present.  (d) More generally, a normally completing tier loop
either stopped early at `MAX_RESULTS` or successfully evaluated every radius
in the range, so (by (a)) every candidate it reached was present. -/
theorem search_missing_candidate_key_panics :
    (∀ (cols : List Column) (i : Nat) (c : Column) (j : Nat)
        (hj : j < c.2.length), c ∈ cols → j < i →
        c.1 (c.2.get ⟨j, hj⟩) = none → iterationIds cols i = none) ∧
    (∀ (db : Db) (cols : List Column), 2 ≤ searchDepth cols →
        (∃ c, c ∈ cols ∧ ∃ hj : 0 < c.2.length, c.1 (c.2.get ⟨0, hj⟩) = none) →
        searchWithCandidates db cols = none) ∧
    (∀ (db : Db) (cols : List Column) (res : List FnDetail),
        2 ≤ searchDepth cols → searchWithCandidates db cols = some res →
        ∀ c, c ∈ cols → ∀ hj : 0 < c.2.length, c.1 (c.2.get ⟨0, hj⟩) ≠ none) ∧
    (∀ (cols : List Column) (st : LoopState), searchEmit cols = some st →
        MAX_RESULTS ≤ st.fn_ids.length ∨
        ∀ i ∈ List.range' 1 (searchDepth cols - 1), iterationIds cols i ≠ none) := by
  have hB : ∀ (db : Db) (cols : List Column), 2 ≤ searchDepth cols →
      (∃ c, c ∈ cols ∧ ∃ hj : 0 < c.2.length, c.1 (c.2.get ⟨0, hj⟩) = none) →
      searchWithCandidates db cols = none := by
    intro db cols hdep hex
    obtain ⟨c, hc, hj, hnone⟩ := hex
    obtain ⟨m, hm⟩ : ∃ m, searchDepth cols - 1 = m + 1 :=
      ⟨searchDepth cols - 2, by omega⟩
    have hiter : iterationIds cols 1 = none :=
      iterationIds_missing cols 1 c 0 hj hc (by omega) hnone
    simp [searchWithCandidates, searchEmit, hm, List.range', searchLoop, hiter]
  refine ⟨?_, hB, ?_, ?_⟩
  · intro cols i c j hj hc hij hnone
    exact iterationIds_missing cols i c j hj hc hij hnone
  · intro db cols res hdep hres c hc hj hnone
    rw [hB db cols hdep ⟨c, hc, hj, hnone⟩] at hres
    exact Option.noConfusion hres
  · intro cols st h
    exact searchLoop_complete cols
      (List.range' 1 (searchDepth cols - 1))
      { fn_ids := [], fn_ids_set := ∅, ranges := [] } st h

/-- C2 witness: on `dbRetNoT` (no `param` key `"T"`), part (a) at a rank-2
candidate (`"T"` ranked second, radius 2) and part (b) with the missing
candidate in the second column — the `param` column of a combined ret/param
query, while the `ret` column is fully present. -/
theorem search_missing_candidate_key_panics_witness :
    iterationIds [((dbRetNoT.paramT, ["U", "T"]) : Column)] 2 = none ∧
    searchWithCandidates dbRetNoT
      [((dbRetNoT.retT, ["u32", "u64"]) : Column),
        ((dbRetNoT.paramT, ["T", "U"]) : Column)] = none :=
  ⟨search_missing_candidate_key_panics.1 [((dbRetNoT.paramT, ["U", "T"]) : Column)]
      2 ((dbRetNoT.paramT, ["U", "T"]) : Column) 1 (by decide)
      (List.mem_singleton.mpr rfl) (by decide) rfl,
    search_missing_candidate_key_panics.2.1 dbRetNoT
      [((dbRetNoT.retT, ["u32", "u64"]) : Column),
        ((dbRetNoT.paramT, ["T", "U"]) : Column)] (by decide)
      ⟨((dbRetNoT.paramT, ["T", "U"]) : Column),
        List.mem_cons_of_mem _ (List.mem_singleton.mpr rfl), by decide, rfl⟩⟩

/-! ## C3 -/

/-- C3: the claim says `analyze_crate_path` returns
`(pkg_name, pkg_version, Result<[FnDetail], ErrorMessage>)`, turning each
failure mode into an error-message value while still returning the package
identity.  The code's `analyze_crate_path` returns a bare
`(String, String, Vec<FnDetail>)` and panics (`assert_eq!` / `unwrap` /
`panic!`) on every failure mode: on each failing environment the embedding
returns `none` — no error value and no package identity — while the success
path returns the bare triple. -/
theorem analyze_crate_path_panics_on_failure_modes :
    analyze_crate_path envTwoMembers = none ∧
    analyze_crate_path envNoLibTarget = none ∧
    analyze_crate_path envLoadFails = none ∧
    analyze_crate_path envCrateNotFound = none ∧
    analyze_crate_path envOk = some ("my-lib", "1.0.0", []) := by
  refine ⟨rfl, rfl, rfl, rfl, ?_⟩
  decide

/-! ## C8 -/

theorem assignIds_mem_get (D : List FnDetail) (s i : Nat) (hi : i < D.length) :
    (s + i, D.get ⟨i, hi⟩) ∈ assignIds s D := by
  induction D generalizing s i with
  | nil => exact absurd hi (by simp)
  | cons d rest ih =>
    cases i with
    | zero =>
      show (s + 0, d) ∈ (s, d) :: assignIds (s + 1) rest
      rw [Nat.add_zero]
      exact List.mem_cons_self _ _
    | succ j =>
      have h := ih (s + 1) j (Nat.lt_of_succ_lt_succ hi)
      show (s + (j + 1), rest.get ⟨j, _⟩) ∈ (s, d) :: assignIds (s + 1) rest
      rw [show s + (j + 1) = (s + 1) + j by omega]
      exact List.mem_cons_of_mem _ h

/-- C8: the `<NOARGS>` sentinel is applied on both sides: `add_crate` posts
every detail with empty `params` under the param key `<NOARGS>` (conjunct 1),
and `search` with a present-but-empty `params_search` behaves exactly as if
it had been called with `[<NOARGS>]` (conjunct 2). -/
theorem noargs_sentinel_consistent :
    (∀ (db : Db) (n v : String) (D : List FnDetail) (i : Nat) (hi : i < D.length),
       (D.get ⟨i, hi⟩).params = [] →
       db.next_fn_id + i ∈ (((add_crate db n v D).paramT NIL_PARAMS).getD ∅)) ∧
    (∀ (db : Db) (fr fp : String → List String) (rs : Option String),
       search db fr fp (some []) rs = search db fr fp (some [NIL_PARAMS]) rs) := by
  constructor
  · intro db n v D i hi hparams
    have hmem : (db.next_fn_id + i, D.get ⟨i, hi⟩) ∈ assignIds db.next_fn_id D :=
      assignIds_mem_get D db.next_fn_id i hi
    have hkey : NIL_PARAMS ∈ effParams (D.get ⟨i, hi⟩) := by
      unfold effParams
      rw [if_pos hparams]
      exact List.mem_singleton.mpr rfl
    have hany : (assignIds db.next_fn_id D).any
        (fun p => NIL_PARAMS ∈ effParams p.2) = true :=
      List.any_eq_true.mpr ⟨_, hmem, by simpa using hkey⟩
    show db.next_fn_id + i ∈
      ((bulkInsert effParams (assignIds db.next_fn_id D) db.paramT NIL_PARAMS).getD ∅)
    rw [bulkInsert, if_pos hany]
    refine Finset.mem_union_right _ ?_
    simp only [postingOf, List.mem_toFinset, List.mem_map, List.mem_filter]
    exact ⟨(db.next_fn_id + i, D.get ⟨i, hi⟩), ⟨hmem, by simpa using hkey⟩, rfl⟩
  · intro db fr fp rs
    rfl

/-- C8 witness: a zero-argument detail added to the empty store lands in the
`<NOARGS>` posting, and the two query spellings agree on a concrete store. -/
theorem noargs_sentinel_consistent_witness :
    emptyDb.next_fn_id + 0 ∈
      (((add_crate emptyDb "c" "1.0" [fdNoArgs]).paramT NIL_PARAMS).getD ∅) ∧
    search dbOne fuzzyU32 fuzzyU32 (some []) none =
      search dbOne fuzzyU32 fuzzyU32 (some [NIL_PARAMS]) none :=
  ⟨noargs_sentinel_consistent.1 emptyDb "c" "1.0" [fdNoArgs] 0 (by decide) rfl,
   noargs_sentinel_consistent.2 dbOne fuzzyU32 fuzzyU32 none⟩

/-! ## C10 -/

theorem upd_isSome_mono {α β : Type} [DecidableEq α] (f : α → Option β)
    (k0 : α) (v : β) (k : α) (h : (f k).isSome = true) :
    ((upd f k0 (some v)) k).isSome = true := by
  unfold upd
  split <;> simp [h]

theorem purgeParams_isSome (ps : List String) :
    ∀ (pt : String → Option (Finset Nat)) (i : Nat) (k : String),
      (pt k).isSome = true → ((purgeParams pt i ps) k).isSome = true := by
  induction ps with
  | nil => intro pt i k h; exact h
  | cons p rest ih =>
    intro pt i k h
    exact ih _ i k (upd_isSome_mono pt p _ k h)

theorem purgeOne_isSome (st st2 : (String → Option (Finset Nat)) × (String → Option (Finset Nat)))
    (p : Nat × FnDetail) (h : purgeOne st p = some st2) (k : String) :
    ((st.1 k).isSome = true → (st2.1 k).isSome = true) ∧
    ((st.2 k).isSome = true → (st2.2 k).isSome = true) := by
  unfold purgeOne at h
  dsimp only [] at h
  split at h
  · cases h
    exact ⟨purgeParams_isSome _ st.1 p.1 k, upd_isSome_mono st.2 p.2.ret _ k⟩
  · cases h

theorem purgePostings_isSome :
    ∀ (L : List (Nat × FnDetail))
      (st st2 : (String → Option (Finset Nat)) × (String → Option (Finset Nat))),
      purgePostings st L = some st2 → ∀ k,
      ((st.1 k).isSome = true → (st2.1 k).isSome = true) ∧
      ((st.2 k).isSome = true → (st2.2 k).isSome = true) := by
  intro L
  induction L with
  | nil =>
    intro st st2 h k
    cases h
    exact ⟨id, id⟩
  | cons p rest ih =>
    intro st st2 h k
    unfold purgePostings at h
    cases hp : purgeOne st p with
    | none => rw [hp] at h; cases h
    | some st1 =>
      rw [hp] at h
      have h1 := purgeOne_isSome st st1 p hp k
      have h2 := ih st1 st2 h k
      exact ⟨fun hh => h2.1 (h1.1 hh), fun hh => h2.2 (h1.2 hh)⟩

theorem purge_crate_isSome (db : Db) (n : String) (db2 : Db)
    (h : purge_crate db n = some db2) (k : String) :
    ((db.paramT k).isSome = true → (db2.paramT k).isSome = true) ∧
    ((db.retT k).isSome = true → (db2.retT k).isSome = true) := by
  unfold purge_crate at h
  cases hc : db.crateT n with
  | none =>
    simp only [hc] at h
    cases h
    exact ⟨id, id⟩
  | some rec =>
    obtain ⟨ver, fn_ids⟩ := rec
    simp only [hc] at h
    cases hf : fetchPurge db fn_ids with
    | none => simp only [hf] at h; exact Option.noConfusion h
    | some fndetails =>
      simp only [hf] at h
      cases hpp : purgePostings (db.paramT, db.retT) fndetails with
      | none => simp only [hpp] at h; exact Option.noConfusion h
      | some st =>
        simp only [hpp, Option.some.injEq] at h
        subst h
        exact purgePostings_isSome fndetails (db.paramT, db.retT) st hpp k

theorem add_crate_isSome (db : Db) (n v : String) (D : List FnDetail) (k : String) :
    ((db.paramT k).isSome = true → ((add_crate db n v D).paramT k).isSome = true) ∧
    ((db.retT k).isSome = true → ((add_crate db n v D).retT k).isSome = true) := by
  constructor
  · intro h
    show (bulkInsert effParams (assignIds db.next_fn_id D) db.paramT k).isSome = true
    unfold bulkInsert
    split <;> simp [h]
  · intro h
    show (bulkInsert retKeys (assignIds db.next_fn_id D) db.retT k).isSome = true
    unfold bulkInsert
    split <;> simp [h]

theorem applyOp_isSome (db : Db) (op : Op) (db2 : Db)
    (h : applyOp db op = some db2) (k : String) :
    ((db.paramT k).isSome = true → (db2.paramT k).isSome = true) ∧
    ((db.retT k).isSome = true → (db2.retT k).isSome = true) := by
  cases op with
  | add n v D =>
    cases h
    exact add_crate_isSome db n v D k
  | purge n =>
    exact purge_crate_isSome db n db2 h k
  | save n v D =>
    simp only [applyOp, save_analysis] at h
    cases hp : purge_crate db n with
    | none => simp only [hp, Option.map_none'] at h; exact Option.noConfusion h
    | some db1 =>
      simp only [hp, Option.map_some', Option.some.injEq] at h
      subst h
      have h1 := purge_crate_isSome db n db1 hp k
      have h2 := add_crate_isSome db1 n v D k
      exact ⟨fun hh => h2.1 (h1.1 hh), fun hh => h2.2 (h1.2 hh)⟩

/-- C10: `purge_crate` writes every (possibly emptied) posting set back under
its original key and never deletes a `param` or `ret` key; consequently, over
any successful sequence of `add_crate` / `purge_crate` / `save_analysis`
operations, every type-string key present in the `param` or `ret` keyspace
stays present. -/
theorem posting_keys_never_deleted (db : Db) (ops : List Op) (db2 : Db)
    (h : runOps db ops = some db2) (k : String) :
    ((db.paramT k).isSome = true → (db2.paramT k).isSome = true) ∧
    ((db.retT k).isSome = true → (db2.retT k).isSome = true) := by
  induction ops generalizing db with
  | nil =>
    cases h
    exact ⟨id, id⟩
  | cons op rest ih =>
    unfold runOps at h
    cases ha : applyOp db op with
    | none => rw [ha] at h; cases h
    | some db1 =>
      rw [ha] at h
      have h1 := applyOp_isSome db op db1 ha k
      have h2 := ih db1 h
      exact ⟨fun hh => h2.1 (h1.1 hh), fun hh => h2.2 (h1.2 hh)⟩

/-- C10 witness: after replacing crate `"c"` (purge + re-add with one detail
of different types) and then purging it again, the original `param` key
`"u32"` is still present. -/
theorem posting_keys_never_deleted_witness :
    (((runOps dbOne [Op.save "c" "1.1" [fdNoArgs], Op.purge "c"]).getD emptyDb).paramT
      "u32").isSome = true :=
  (posting_keys_never_deleted dbOne [Op.save "c" "1.1" [fdNoArgs], Op.purge "c"]
    ((runOps dbOne [Op.save "c" "1.1" [fdNoArgs], Op.purge "c"]).getD emptyDb)
    rfl "u32").1 rfl

/-! ## C5 -/

theorem assignIds_map_fst (D : List FnDetail) :
    ∀ s : Nat, (assignIds s D).map Prod.fst = List.range' s D.length := by
  induction D with
  | nil => intro s; rfl
  | cons d rest ih =>
    intro s
    show s :: (assignIds (s + 1) rest).map Prod.fst = List.range' s (rest.length + 1)
    rw [ih (s + 1), List.range'_succ]

theorem lookup_mem_keys :
    ∀ (l : List (Nat × FnDetail)) (a : Nat) (b : FnDetail),
      List.lookup a l = some b → a ∈ l.map Prod.fst := by
  intro l
  induction l with
  | nil => intro a b h; cases h
  | cons p rest ih =>
    intro a b h
    obtain ⟨k, v⟩ := p
    rw [List.lookup] at h
    by_cases he : a = k
    · exact he ▸ List.mem_cons_self _ _
    · have hbeq : (a == k) = false := beq_eq_false_iff_ne.mpr he
      rw [hbeq] at h
      exact List.mem_cons_of_mem _ (ih a b h)

theorem purge_crate_next (db : Db) (n : String) (db2 : Db)
    (h : purge_crate db n = some db2) : db2.next_fn_id = db.next_fn_id := by
  unfold purge_crate at h
  cases hc : db.crateT n with
  | none => simp only [hc] at h; cases h; rfl
  | some rec =>
    obtain ⟨ver, fn_ids⟩ := rec
    simp only [hc] at h
    cases hf : fetchPurge db fn_ids with
    | none => simp only [hf] at h; exact Option.noConfusion h
    | some fndetails =>
      simp only [hf] at h
      cases hpp : purgePostings (db.paramT, db.retT) fndetails with
      | none => simp only [hpp] at h; exact Option.noConfusion h
      | some st =>
        simp only [hpp, Option.some.injEq] at h
        subst h
        rfl

theorem add_crate_next (db : Db) (n v : String) (D : List FnDetail) :
    (add_crate db n v D).next_fn_id = db.next_fn_id + D.length := rfl

theorem applyOp_spec (db : Db) (op : Op) (db2 : Db) (h : applyOp db op = some db2) :
    db.next_fn_id ≤ db2.next_fn_id ∧
    (∀ i ∈ opAssigned db op, db.next_fn_id ≤ i ∧ i < db2.next_fn_id) ∧
    (opAssigned db op).Nodup := by
  cases op with
  | add n v D =>
    cases h
    refine ⟨Nat.le_add_right _ _, ?_, ?_⟩
    · intro i hi
      rw [opAssigned, assignIds_map_fst, List.mem_range'_1] at hi
      exact ⟨hi.1, by simpa [add_crate] using hi.2⟩
    · rw [opAssigned, assignIds_map_fst]
      exact List.nodup_range' _ _
  | purge n =>
    have := purge_crate_next db n db2 h
    exact ⟨this ▸ Nat.le_refl _, fun i hi => absurd hi (by simp [opAssigned]), by
      simp [opAssigned]⟩
  | save n v D =>
    simp only [applyOp, save_analysis] at h
    cases hp : purge_crate db n with
    | none => simp only [hp, Option.map_none'] at h; exact Option.noConfusion h
    | some db1 =>
      simp only [hp, Option.map_some', Option.some.injEq] at h
      subst h
      have hnext := purge_crate_next db n db1 hp
      refine ⟨?_, ?_, ?_⟩
      · rw [add_crate_next, hnext]; exact Nat.le_add_right _ _
      · intro i hi
        rw [opAssigned, assignIds_map_fst, List.mem_range'_1] at hi
        rw [add_crate_next, hnext]
        exact ⟨hi.1, hi.2⟩
      · rw [opAssigned, assignIds_map_fst]
        exact List.nodup_range' _ _

theorem runOps_spec (ops : List Op) :
    ∀ (db db' : Db), runOps db ops = some db' →
    db.next_fn_id ≤ db'.next_fn_id ∧
    (∀ i ∈ runAssigned db ops, db.next_fn_id ≤ i ∧ i < db'.next_fn_id) ∧
    (runAssigned db ops).Nodup := by
  induction ops with
  | nil =>
    intro db db' h
    cases h
    exact ⟨Nat.le_refl _, fun i hi => absurd hi (by simp [runAssigned]), by
      simp [runAssigned]⟩
  | cons op rest ih =>
    intro db db' h
    unfold runOps at h
    cases ha : applyOp db op with
    | none => rw [ha] at h; exact Option.noConfusion h
    | some db1 =>
      rw [ha] at h
      obtain ⟨hle1, hbd1, hnd1⟩ := applyOp_spec db op db1 ha
      obtain ⟨hle2, hbd2, hnd2⟩ := ih db1 db' h
      have hrw : runAssigned db (op :: rest) =
          opAssigned db op ++ runAssigned db1 rest := by
        conv_lhs => rw [runAssigned]
        rw [ha]
      refine ⟨Nat.le_trans hle1 hle2, ?_, ?_⟩
      · intro i hi
        rw [hrw, List.mem_append] at hi
        rcases hi with hi | hi
        · exact ⟨(hbd1 i hi).1, Nat.lt_of_lt_of_le (hbd1 i hi).2 hle2⟩
        · exact ⟨Nat.le_trans hle1 (hbd2 i hi).1, (hbd2 i hi).2⟩
      · rw [hrw]
        refine List.Nodup.append hnd1 hnd2 ?_
        intro a ha1 ha2
        exact absurd (hbd2 a ha2).1 (Nat.not_le.mpr (hbd1 a ha1).2)

theorem add_crate_fnBounded (db : Db) (n v : String) (D : List FnDetail)
    (hfb : ∀ id, ((db.fnT id).isSome = true) → id < db.next_fn_id) :
    ∀ id, (((add_crate db n v D).fnT id).isSome = true) →
      id < (add_crate db n v D).next_fn_id := by
  intro id h
  rw [add_crate_next]
  have h2 : ((match List.lookup id (assignIds db.next_fn_id D) with
         | some d => some d
         | none => db.fnT id) : Option FnDetail).isSome = true := h
  cases hl : List.lookup id (assignIds db.next_fn_id D) with
  | some d =>
    have hmem := lookup_mem_keys _ id d hl
    rw [assignIds_map_fst, List.mem_range'_1] at hmem
    omega
  | none =>
    rw [hl] at h2
    exact Nat.lt_of_lt_of_le (hfb id h2) (Nat.le_add_right _ _)

theorem purge_crate_fnBounded (db : Db) (n : String) (db2 : Db)
    (h : purge_crate db n = some db2)
    (hfb : ∀ id, ((db.fnT id).isSome = true) → id < db.next_fn_id) :
    ∀ id, ((db2.fnT id).isSome = true) → id < db2.next_fn_id := by
  unfold purge_crate at h
  cases hc : db.crateT n with
  | none => simp only [hc] at h; cases h; exact hfb
  | some rec =>
    obtain ⟨ver, fn_ids⟩ := rec
    simp only [hc] at h
    cases hf : fetchPurge db fn_ids with
    | none => simp only [hf] at h; exact Option.noConfusion h
    | some fndetails =>
      simp only [hf] at h
      cases hpp : purgePostings (db.paramT, db.retT) fndetails with
      | none => simp only [hpp] at h; exact Option.noConfusion h
      | some st =>
        simp only [hpp, Option.some.injEq] at h
        subst h
        intro id hid
        by_cases hm : id ∈ fn_ids
        · simp [hm] at hid
        · simp only [hm, if_neg, if_false] at hid
          exact hfb id (by simpa [hm] using hid)

theorem applyOp_fnBounded (db : Db) (op : Op) (db2 : Db)
    (h : applyOp db op = some db2)
    (hfb : ∀ id, ((db.fnT id).isSome = true) → id < db.next_fn_id) :
    ∀ id, ((db2.fnT id).isSome = true) → id < db2.next_fn_id := by
  cases op with
  | add n v D =>
    cases h
    exact add_crate_fnBounded db n v D hfb
  | purge n => exact purge_crate_fnBounded db n db2 h hfb
  | save n v D =>
    simp only [applyOp, save_analysis] at h
    cases hp : purge_crate db n with
    | none => simp only [hp, Option.map_none'] at h; exact Option.noConfusion h
    | some db1 =>
      simp only [hp, Option.map_some', Option.some.injEq] at h
      subst h
      exact add_crate_fnBounded db1 n v D (purge_crate_fnBounded db n db1 hp hfb)

theorem runOps_fnBounded (ops : List Op) :
    ∀ (db db' : Db), runOps db ops = some db' →
    (∀ id, ((db.fnT id).isSome = true) → id < db.next_fn_id) →
    ∀ id, ((db'.fnT id).isSome = true) → id < db'.next_fn_id := by
  induction ops with
  | nil =>
    intro db db' h hfb
    cases h
    exact hfb
  | cons op rest ih =>
    intro db db' h hfb
    unfold runOps at h
    cases ha : applyOp db op with
    | none => rw [ha] at h; exact Option.noConfusion h
    | some db1 =>
      rw [ha] at h
      exact ih db1 db' h (applyOp_fnBounded db op db1 ha hfb)

/-- C5: over any successful sequence of `add_crate` / `purge_crate` /
`save_analysis` starting from a store whose stored fn ids are below the
counter, (1) `next_fn_id` ends strictly greater than every fn id assigned
anywhere in the run, (2) no fn id is ever assigned twice — not even after the
crate owning it has been purged — and (3) every fn id still stored is below
the final counter. -/
theorem fn_ids_never_reused (db : Db) (ops : List Op) (db' : Db)
    (hfb : ∀ id, ((db.fnT id).isSome = true) → id < db.next_fn_id)
    (h : runOps db ops = some db') :
    (∀ i ∈ runAssigned db ops, i < db'.next_fn_id) ∧
    (runAssigned db ops).Nodup ∧
    (∀ id, ((db'.fnT id).isSome = true) → id < db'.next_fn_id) := by
  obtain ⟨_, hbd, hnd⟩ := runOps_spec ops db db' h
  exact ⟨fun i hi => (hbd i hi).2, hnd, runOps_fnBounded ops db db' h hfb⟩

/-! ## C4 -/

theorem upd_self {α β : Type} [DecidableEq α] (f : α → β) (k : α) (v : β) :
    (upd f k v) k = v := by
  simp [upd]

theorem purgeParams_getD_subset (ps : List String) :
    ∀ (pt : String → Option (Finset Nat)) (i : Nat) (k : String) (x : Nat),
      x ∈ ((purgeParams pt i ps) k).getD ∅ → x ∈ (pt k).getD ∅ := by
  induction ps with
  | nil => intro pt i k x h; exact h
  | cons p rest ih =>
    intro pt i k x h
    have h2 := ih _ i k x h
    unfold upd at h2
    by_cases he : k = p
    · rw [if_pos he] at h2
      rw [Option.getD_some] at h2
      exact he ▸ Finset.mem_of_mem_erase h2
    · rwa [if_neg he] at h2

theorem purgeParams_not_mem_key (ps : List String) :
    ∀ (pt : String → Option (Finset Nat)) (i : Nat) (k : String),
      k ∉ ps → (purgeParams pt i ps) k = pt k := by
  induction ps with
  | nil => intro pt i k _; rfl
  | cons p rest ih =>
    intro pt i k hk
    have h1 : k ∉ rest := fun hr => hk (List.mem_cons_of_mem _ hr)
    have h2 : k ≠ p := fun he => hk (he ▸ List.mem_cons_self _ _)
    rw [purgeParams, ih _ i k h1]
    unfold upd
    rw [if_neg h2]

theorem purgeParams_removes (ps : List String) :
    ∀ (pt : String → Option (Finset Nat)) (i : Nat) (k : String),
      k ∈ ps → i ∉ ((purgeParams pt i ps) k).getD ∅ := by
  induction ps with
  | nil => intro pt i k hk; cases hk
  | cons p rest ih =>
    intro pt i k hk
    by_cases hr : k ∈ rest
    · exact ih _ i k hr
    · have he : k = p := by
        rcases List.mem_cons.mp hk with h | h
        · exact h
        · exact absurd h hr
      rw [purgeParams, purgeParams_not_mem_key rest _ i k hr]
      subst he
      rw [upd_self, Option.getD_some]
      exact Finset.not_mem_erase i _

theorem purgeOne_getD_subset
    (st st2 : (String → Option (Finset Nat)) × (String → Option (Finset Nat)))
    (p : Nat × FnDetail) (h : purgeOne st p = some st2) (k : String) (x : Nat) :
    (x ∈ (st2.1 k).getD ∅ → x ∈ (st.1 k).getD ∅) ∧
    (x ∈ (st2.2 k).getD ∅ → x ∈ (st.2 k).getD ∅) := by
  unfold purgeOne at h
  dsimp only [] at h
  split at h
  · cases h
    refine ⟨purgeParams_getD_subset _ st.1 p.1 k x, ?_⟩
    intro hx
    have hx2 : x ∈ ((if k = p.2.ret then
        some (((st.2 p.2.ret).getD ∅).erase p.1) else st.2 k) : Option (Finset Nat)).getD ∅ := hx
    by_cases he : k = p.2.ret
    · rw [if_pos he, Option.getD_some] at hx2
      exact he ▸ Finset.mem_of_mem_erase hx2
    · rwa [if_neg he] at hx2
  · cases h

theorem purgeOne_removes_own
    (st st2 : (String → Option (Finset Nat)) × (String → Option (Finset Nat)))
    (p : Nat × FnDetail) (h : purgeOne st p = some st2) :
    (∀ k ∈ effParams p.2, p.1 ∉ (st2.1 k).getD ∅) ∧
    p.1 ∉ (st2.2 p.2.ret).getD ∅ := by
  unfold purgeOne at h
  dsimp only [] at h
  split at h
  · cases h
    refine ⟨fun k hk => purgeParams_removes _ st.1 p.1 k hk, ?_⟩
    show p.1 ∉ ((upd st.2 p.2.ret
      (some (((st.2 p.2.ret).getD ∅).erase p.1))) p.2.ret).getD ∅
    rw [upd_self, Option.getD_some]
    exact Finset.not_mem_erase _ _
  · cases h

theorem purgePostings_getD_subset :
    ∀ (L : List (Nat × FnDetail))
      (st st2 : (String → Option (Finset Nat)) × (String → Option (Finset Nat))),
      purgePostings st L = some st2 → ∀ (k : String) (x : Nat),
      (x ∈ (st2.1 k).getD ∅ → x ∈ (st.1 k).getD ∅) ∧
      (x ∈ (st2.2 k).getD ∅ → x ∈ (st.2 k).getD ∅) := by
  intro L
  induction L with
  | nil =>
    intro st st2 h k x
    cases h
    exact ⟨id, id⟩
  | cons p rest ih =>
    intro st st2 h k x
    unfold purgePostings at h
    cases hp : purgeOne st p with
    | none => rw [hp] at h; exact Option.noConfusion h
    | some st1 =>
      rw [hp] at h
      have h1 := purgeOne_getD_subset st st1 p hp k x
      have h2 := ih st1 st2 h k x
      exact ⟨fun hh => h1.1 (h2.1 hh), fun hh => h1.2 (h2.2 hh)⟩

theorem purgePostings_removes :
    ∀ (L : List (Nat × FnDetail))
      (st st2 : (String → Option (Finset Nat)) × (String → Option (Finset Nat))),
      purgePostings st L = some st2 → ∀ p ∈ L,
      (∀ k ∈ effParams p.2, p.1 ∉ (st2.1 k).getD ∅) ∧
      p.1 ∉ (st2.2 p.2.ret).getD ∅ := by
  intro L
  induction L with
  | nil => intro st st2 h p hp; cases hp
  | cons q rest ih =>
    intro st st2 h p hp
    unfold purgePostings at h
    cases hq : purgeOne st q with
    | none => rw [hq] at h; exact Option.noConfusion h
    | some st1 =>
      rw [hq] at h
      rcases List.mem_cons.mp hp with he | hr
      · subst he
        have hrem := purgeOne_removes_own st st1 p hq
        constructor
        · intro k hk hmem
          exact hrem.1 k hk ((purgePostings_getD_subset rest st1 st2 h k p.1).1 hmem)
        · intro hmem
          exact hrem.2 ((purgePostings_getD_subset rest st1 st2 h p.2.ret p.1).2 hmem)
      · exact ih st1 st2 h p hr

theorem purge_crate_getD_subset (db : Db) (n : String) (db2 : Db)
    (h : purge_crate db n = some db2) (k : String) (x : Nat) :
    (x ∈ (db2.paramT k).getD ∅ → x ∈ (db.paramT k).getD ∅) ∧
    (x ∈ (db2.retT k).getD ∅ → x ∈ (db.retT k).getD ∅) := by
  unfold purge_crate at h
  cases hc : db.crateT n with
  | none => simp only [hc] at h; cases h; exact ⟨id, id⟩
  | some rec =>
    obtain ⟨ver, fn_ids⟩ := rec
    simp only [hc] at h
    cases hf : fetchPurge db fn_ids with
    | none => simp only [hf] at h; exact Option.noConfusion h
    | some fndetails =>
      simp only [hf] at h
      cases hpp : purgePostings (db.paramT, db.retT) fndetails with
      | none => simp only [hpp] at h; exact Option.noConfusion h
      | some st =>
        simp only [hpp, Option.some.injEq] at h
        subst h
        exact purgePostings_getD_subset fndetails (db.paramT, db.retT) st hpp k x

theorem assignIds_mem_elim (D : List FnDetail) :
    ∀ (s i : Nat) (d : FnDetail), (i, d) ∈ assignIds s D →
      ∃ j, ∃ hj : j < D.length, i = s + j ∧ D.get ⟨j, hj⟩ = d := by
  induction D with
  | nil => intro s i d h; cases h
  | cons e rest ih =>
    intro s i d h
    rcases List.mem_cons.mp h with he | hr
    · have h1 : i = s := congrArg Prod.fst he
      have h2 : d = e := congrArg Prod.snd he
      exact ⟨0, Nat.succ_pos _, by omega, h2.symm⟩
    · obtain ⟨j, hj, hij, hd⟩ := ih (s + 1) i d hr
      exact ⟨j + 1, Nat.succ_lt_succ hj, by omega, hd⟩

theorem postingOf_assignIds_mem (keysOf : FnDetail → List String)
    (D : List FnDetail) (s : Nat) (k : String) (x : Nat)
    (h : x ∈ postingOf keysOf (assignIds s D) k) :
    ∃ j, ∃ hj : j < D.length, x = s + j ∧ k ∈ keysOf (D.get ⟨j, hj⟩) := by
  simp only [postingOf, List.mem_toFinset, List.mem_map, List.mem_filter] at h
  obtain ⟨p, ⟨hmem, hkey⟩, hfst⟩ := h
  obtain ⟨j, hj, hij, hd⟩ := assignIds_mem_elim D s p.1 p.2 hmem
  exact ⟨j, hj, hfst ▸ hij, by rw [hd]; simpa using hkey⟩

theorem bulkInsert_getD (keysOf : FnDetail → List String)
    (A : List (Nat × FnDetail)) (f : String → Option (Finset Nat)) (k : String) :
    ((bulkInsert keysOf A f k).getD ∅) = (f k).getD ∅ ∪ postingOf keysOf A k := by
  unfold bulkInsert
  by_cases h : A.any (fun p => k ∈ keysOf p.2) = true
  · rw [if_pos h, Option.getD_some]
  · rw [if_neg h]
    have hfalse : A.any (fun p => k ∈ keysOf p.2) = false := Bool.eq_false_iff.mpr h
    have hall := List.any_eq_false.mp hfalse
    have hempty : postingOf keysOf A k = ∅ := by
      simp only [postingOf]
      rw [List.filter_eq_nil_iff.mpr (fun p hp => hall p hp)]
      rfl
    rw [hempty, Finset.union_empty]

theorem lookup_of_mem_nodup :
    ∀ (l : List (Nat × FnDetail)) (i : Nat) (d : FnDetail),
      (i, d) ∈ l → (l.map Prod.fst).Nodup → List.lookup i l = some d := by
  intro l
  induction l with
  | nil => intro i d h _; cases h
  | cons p rest ih =>
    intro i d h hnd
    obtain ⟨k, v⟩ := p
    rw [List.lookup]
    rcases List.mem_cons.mp h with he | hr
    · have h1 : i = k := congrArg Prod.fst he
      have h2 : d = v := congrArg Prod.snd he
      rw [h1, h2]
      simp
    · have hne : i ≠ k := by
        intro he2
        subst he2
        have hmm : i ∈ rest.map Prod.fst := List.mem_map.mpr ⟨(i, d), hr, rfl⟩
        exact (List.nodup_cons.mp (by simpa using hnd)).1 hmm
      have hbeq : (i == k) = false := beq_eq_false_iff_ne.mpr hne
      rw [hbeq]
      exact ih i d hr (List.nodup_cons.mp (by simpa using hnd)).2

theorem fetchPurge_assignIds (db : Db) :
    ∀ (A : List (Nat × FnDetail)), (∀ p ∈ A, db.fnT p.1 = some p.2) →
      fetchPurge db (A.map Prod.fst) = some A := by
  intro A
  induction A with
  | nil => intro _; rfl
  | cons p rest ih =>
    intro hall
    show fetchPurge db (p.1 :: rest.map Prod.fst) = some (p :: rest)
    rw [fetchPurge, hall p (List.mem_cons_self _ _),
        ih (fun q hq => hall q (List.mem_cons_of_mem _ hq))]

/-- C4: after `save_analysis(n, v1, D1); save_analysis(n, v2, D2)` on a store
whose postings only hold ids below the counter, no `param` or `ret` posting
contains any of the ids assigned to the details of `D1` (which are exactly
`db.next_fn_id, …, db.next_fn_id + |D1| - 1`). -/
theorem save_twice_leaves_no_old_posting (db : Db) (n v1 v2 : String)
    (D1 D2 : List FnDetail) (s1 s2 : Db)
    (hWF : ∀ (k : String) (i : Nat),
      (i ∈ (db.paramT k).getD ∅ → i < db.next_fn_id) ∧
      (i ∈ (db.retT k).getD ∅ → i < db.next_fn_id))
    (h1 : save_analysis db n v1 D1 = some s1)
    (h2 : save_analysis s1 n v2 D2 = some s2) :
    ∀ (k : String) (i : Nat), db.next_fn_id ≤ i → i < db.next_fn_id + D1.length →
      i ∉ (s2.paramT k).getD ∅ ∧ i ∉ (s2.retT k).getD ∅ := by
  -- unpack the first save
  obtain ⟨p1, hp1, hs1⟩ : ∃ p1, purge_crate db n = some p1 ∧
      s1 = add_crate p1 n v1 D1 := by
    unfold save_analysis at h1
    cases hp : purge_crate db n with
    | none => rw [hp, Option.map_none'] at h1; exact Option.noConfusion h1
    | some p1 =>
      rw [hp, Option.map_some'] at h1
      exact ⟨p1, rfl, (Option.some.injEq _ _ ▸ h1).symm⟩
  have hnext1 : p1.next_fn_id = db.next_fn_id := purge_crate_next db n p1 hp1
  -- unpack the second save
  obtain ⟨p2, hp2, hs2⟩ : ∃ p2, purge_crate s1 n = some p2 ∧
      s2 = add_crate p2 n v2 D2 := by
    unfold save_analysis at h2
    cases hp : purge_crate s1 n with
    | none => rw [hp, Option.map_none'] at h2; exact Option.noConfusion h2
    | some p2 =>
      rw [hp, Option.map_some'] at h2
      exact ⟨p2, rfl, (Option.some.injEq _ _ ▸ h2).symm⟩
  -- name the first batch of assigned pairs
  set A1 := assignIds db.next_fn_id D1 with hA1
  -- s1's trees
  have hs1crate : s1.crateT n = some (v1, A1.map Prod.fst) := by
    rw [hs1]
    show upd p1.crateT n (some (v1, (assignIds p1.next_fn_id D1).map Prod.fst)) n = _
    rw [upd_self, hnext1]
  have hs1param : ∀ k, (s1.paramT k).getD ∅ =
      (p1.paramT k).getD ∅ ∪ postingOf effParams A1 k := by
    intro k
    rw [hs1]
    show ((bulkInsert effParams (assignIds p1.next_fn_id D1) p1.paramT k).getD ∅) = _
    rw [hnext1, bulkInsert_getD]
  have hs1ret : ∀ k, (s1.retT k).getD ∅ =
      (p1.retT k).getD ∅ ∪ postingOf retKeys A1 k := by
    intro k
    rw [hs1]
    show ((bulkInsert retKeys (assignIds p1.next_fn_id D1) p1.retT k).getD ∅) = _
    rw [hnext1, bulkInsert_getD]
  have hs1fnT : ∀ p ∈ A1, s1.fnT p.1 = some p.2 := by
    intro p hp
    rw [hs1]
    show (match List.lookup p.1 (assignIds p1.next_fn_id D1) with
          | some d => some d
          | none => p1.fnT p.1) = some p.2
    rw [hnext1]
    rw [lookup_of_mem_nodup A1 p.1 p.2 (by simpa using hp)
          (by rw [hA1, assignIds_map_fst]; exact List.nodup_range' _ _)]
  -- reduce the second purge on s1
  have hfetch : fetchPurge s1 (A1.map Prod.fst) = some A1 :=
    fetchPurge_assignIds s1 A1 hs1fnT
  obtain ⟨st, hpp, hP2p, hP2r⟩ :
      ∃ st, purgePostings (s1.paramT, s1.retT) A1 = some st ∧
        p2.paramT = st.1 ∧ p2.retT = st.2 := by
    unfold purge_crate at hp2
    simp only [hs1crate] at hp2
    simp only [hfetch] at hp2
    cases hpp : purgePostings (s1.paramT, s1.retT) A1 with
    | none => simp only [hpp] at hp2; exact Option.noConfusion hp2
    | some st =>
      simp only [hpp, Option.some.injEq] at hp2
      subst hp2
      exact ⟨st, rfl, rfl, rfl⟩
  have hnext2 : p2.next_fn_id = s1.next_fn_id := purge_crate_next s1 n p2 hp2
  have hs1next : s1.next_fn_id = db.next_fn_id + D1.length := by
    rw [hs1, add_crate_next, hnext1]
  -- main argument
  intro k i hlo hhi
  obtain ⟨j, hj, hij⟩ : ∃ j, j < D1.length ∧ i = db.next_fn_id + j :=
    ⟨i - db.next_fn_id, by omega, by omega⟩
  have hmem : (i, D1.get ⟨j, hj⟩) ∈ A1 := by
    rw [hij, hA1]
    exact assignIds_mem_get D1 db.next_fn_id j hj
  -- i is not in any of p2's postings
  have hp2clean : i ∉ (p2.paramT k).getD ∅ ∧ i ∉ (p2.retT k).getD ∅ := by
    have hrem := purgePostings_removes A1 (s1.paramT, s1.retT) st hpp
      (i, D1.get ⟨j, hj⟩) hmem
    constructor
    · -- param side
      by_cases hk : k ∈ effParams (D1.get ⟨j, hj⟩)
      · rw [hP2p]; exact hrem.1 k hk
      · rw [hP2p]
        intro hmem2
        have hin1 : i ∈ (s1.paramT k).getD ∅ :=
          (purgePostings_getD_subset A1 (s1.paramT, s1.retT) st hpp k i).1 hmem2
        rw [hs1param] at hin1
        rcases Finset.mem_union.mp hin1 with hold | hnew
        · have := (hWF k i).1 ((purge_crate_getD_subset db n p1 hp1 k i).1 hold)
          omega
        · obtain ⟨j2, hj2, hij2, hkey2⟩ :=
            postingOf_assignIds_mem effParams D1 db.next_fn_id k i hnew
          have : j2 = j := by omega
          subst this
          exact hk hkey2
    · -- ret side
      by_cases hk : k = (D1.get ⟨j, hj⟩).ret
      · rw [hP2r, hk]; exact hrem.2
      · rw [hP2r]
        intro hmem2
        have hin1 : i ∈ (s1.retT k).getD ∅ :=
          (purgePostings_getD_subset A1 (s1.paramT, s1.retT) st hpp k i).2 hmem2
        rw [hs1ret] at hin1
        rcases Finset.mem_union.mp hin1 with hold | hnew
        · have := (hWF k i).2 ((purge_crate_getD_subset db n p1 hp1 k i).2 hold)
          omega
        · obtain ⟨j2, hj2, hij2, hkey2⟩ :=
            postingOf_assignIds_mem retKeys D1 db.next_fn_id k i hnew
          have : j2 = j := by omega
          subst this
          exact hk (by simpa [retKeys] using hkey2)
  -- the second add only adds ids ≥ p2.next_fn_id > i
  have hs2param : (s2.paramT k).getD ∅ =
      (p2.paramT k).getD ∅ ∪ postingOf effParams (assignIds p2.next_fn_id D2) k := by
    rw [hs2]
    show ((bulkInsert effParams (assignIds p2.next_fn_id D2) p2.paramT k).getD ∅) = _
    rw [bulkInsert_getD]
  have hs2ret : (s2.retT k).getD ∅ =
      (p2.retT k).getD ∅ ∪ postingOf retKeys (assignIds p2.next_fn_id D2) k := by
    rw [hs2]
    show ((bulkInsert retKeys (assignIds p2.next_fn_id D2) p2.retT k).getD ∅) = _
    rw [bulkInsert_getD]
  constructor
  · rw [hs2param]
    intro hmem2
    rcases Finset.mem_union.mp hmem2 with hold | hnew
    · exact hp2clean.1 hold
    · obtain ⟨j2, hj2, hij2, _⟩ :=
        postingOf_assignIds_mem effParams D2 p2.next_fn_id k i hnew
      rw [hnext2, hs1next] at hij2
      omega
  · rw [hs2ret]
    intro hmem2
    rcases Finset.mem_union.mp hmem2 with hold | hnew
    · exact hp2clean.2 hold
    · obtain ⟨j2, hj2, hij2, _⟩ :=
        postingOf_assignIds_mem retKeys D2 p2.next_fn_id k i hnew
      rw [hnext2, hs1next] at hij2
      omega

/-- C4 witness: two concrete saves of crate `"c"` from the empty store; the
id 0 assigned to the first batch is gone from the postings of both its keys. -/
theorem save_twice_leaves_no_old_posting_witness :
    (0 ∉ (dbSave2.paramT "u32").getD ∅ ∧ 0 ∉ (dbSave2.retT "u32").getD ∅) :=
  save_twice_leaves_no_old_posting emptyDb "c" "1.0" "1.1" [fdU32] [fdNoArgs]
    dbSave1 dbSave2
    (fun k i => ⟨fun h => absurd h (by simp [emptyDb]),
                 fun h => absurd h (by simp [emptyDb])⟩)
    rfl rfl "u32" 0 (Nat.le_refl _) (by decide)

/-! ## C6 and C7: the tier loop invariant -/

theorem fetchDetails_length (db : Db) :
    ∀ (ids : List Nat) (ds : List FnDetail),
      fetchDetails db ids = some ds → ds.length = ids.length := by
  intro ids
  induction ids with
  | nil => intro ds h; cases h; rfl
  | cons id rest ih =>
    intro ds h
    rw [fetchDetails] at h
    cases h1 : db.fnT id with
    | none => rw [h1] at h; exact Option.noConfusion h
    | some d =>
      rw [h1] at h
      cases h2 : fetchDetails db rest with
      | none => rw [h2] at h; exact Option.noConfusion h
      | some ds2 =>
        rw [h2] at h
        have hds : d :: ds2 = ds := Option.some.inj h
        rw [← hds]
        simp [ih ds2 h2]

theorem sortRange_length (l : List FnDetail) (r : Nat × Nat) (h : r.1 ≤ r.2) :
    (sortRange l r).length = l.length := by
  simp only [sortRange, List.length_append, List.length_take, List.length_drop,
    List.length_insertionSort]
  omega

theorem foldl_sortRange_length :
    ∀ (rgs : List (Nat × Nat)) (l : List FnDetail),
      (∀ r ∈ rgs, r.1 ≤ r.2) → (rgs.foldl sortRange l).length = l.length := by
  intro rgs
  induction rgs with
  | nil => intro l _; rfl
  | cons r rest ih =>
    intro l hall
    show (rest.foldl sortRange (sortRange l r)).length = l.length
    rw [ih _ (fun q hq => hall q (List.mem_cons_of_mem _ hq)),
        sortRange_length l r (hall r (List.mem_cons_self _ _))]

theorem sortRange_take (l : List FnDetail) (r : Nat × Nat) (a : Nat)
    (ha : a ≤ r.1) (hr : r.1 ≤ r.2) :
    (sortRange l r).take a = l.take a := by
  by_cases hlen : a ≤ l.length
  · have h1 : a ≤ (l.take r.1).length := by
      rw [List.length_take]; omega
    rw [sortRange, List.append_assoc, List.take_append_of_le_length h1,
        List.take_take, Nat.min_eq_left ha]
  · push_neg at hlen
    have h1 : l.take r.1 = l := List.take_of_length_le (by omega)
    have h2 : l.drop r.1 = [] := List.drop_eq_nil_of_le (by omega)
    have h3 : l.drop r.2 = [] := List.drop_eq_nil_of_le (by omega)
    rw [sortRange, h1, h2, h3]
    simp

theorem foldl_sortRange_take :
    ∀ (rgs : List (Nat × Nat)) (l : List FnDetail) (a : Nat),
      (∀ r ∈ rgs, a ≤ r.1 ∧ r.1 ≤ r.2) →
      (rgs.foldl sortRange l).take a = l.take a := by
  intro rgs
  induction rgs with
  | nil => intro l a _; rfl
  | cons r rest ih =>
    intro l a hall
    show (rest.foldl sortRange (sortRange l r)).take a = l.take a
    rw [ih _ a (fun q hq => hall q (List.mem_cons_of_mem _ hq)),
        sortRange_take l r a (hall r (List.mem_cons_self _ _)).1
          (hall r (List.mem_cons_self _ _)).2]

theorem sortRange_slice (l : List FnDetail) (r : Nat × Nat) (hr : r.1 ≤ r.2) :
    ((sortRange l r).drop r.1).take (r.2 - r.1) =
      List.insertionSort fdLE ((l.drop r.1).take (r.2 - r.1)) := by
  by_cases h1 : r.1 ≤ l.length
  · have hlen1 : (l.take r.1).length = r.1 := by rw [List.length_take]; omega
    rw [sortRange, List.append_assoc, List.drop_left' hlen1]
    have hS : (List.insertionSort fdLE ((l.drop r.1).take (r.2 - r.1))).length =
        min (r.2 - r.1) (l.length - r.1) := by
      rw [List.length_insertionSort, List.length_take, List.length_drop]
    by_cases h2 : r.2 ≤ l.length
    · exact List.take_left' (by rw [hS]; omega)
    · push_neg at h2
      have h3 : l.drop r.2 = [] := List.drop_eq_nil_of_le (by omega)
      rw [h3, List.append_nil]
      exact List.take_of_length_le (by rw [hS]; omega)
  · push_neg at h1
    have ht : l.take r.1 = l := List.take_of_length_le (by omega)
    have hd1 : l.drop r.1 = [] := List.drop_eq_nil_of_le (by omega)
    have hd2 : l.drop r.2 = [] := List.drop_eq_nil_of_le (by omega)
    rw [sortRange, ht, hd1, hd2]
    simp [hd1]

theorem foldl_sortRange_sorted :
    ∀ (rgs : List (Nat × Nat)) (l : List FnDetail),
      (∀ r ∈ rgs, r.1 ≤ r.2) →
      List.Pairwise (fun a b : Nat × Nat => a.2 ≤ b.1) rgs →
      ∀ r ∈ rgs,
        List.Sorted fdLE (((rgs.foldl sortRange l).drop r.1).take (r.2 - r.1)) := by
  intro rgs
  induction rgs with
  | nil => intro l _ _ r hr; cases hr
  | cons r0 rest ih =>
    intro l hall hpw r hr
    have hr0 : r0.1 ≤ r0.2 := hall r0 (List.mem_cons_self _ _)
    have hpw_head : ∀ b ∈ rest, r0.2 ≤ b.1 := (List.pairwise_cons.mp hpw).1
    have hpw_tail := (List.pairwise_cons.mp hpw).2
    show List.Sorted fdLE
      (((rest.foldl sortRange (sortRange l r0)).drop r.1).take (r.2 - r.1))
    rcases List.mem_cons.mp hr with he | hm
    · subst he
      have hpres : (rest.foldl sortRange (sortRange l r)).take r.2 =
          (sortRange l r).take r.2 :=
        foldl_sortRange_take rest _ r.2
          (fun q hq => ⟨hpw_head q hq, hall q (List.mem_cons_of_mem _ hq)⟩)
      rw [show ∀ (x : List FnDetail),
            (x.drop r.1).take (r.2 - r.1) = (x.take r.2).drop r.1 from
            fun x => (List.drop_take r.2 r.1 x).symm,
          hpres,
          show ((sortRange l r).take r.2).drop r.1 =
              (((sortRange l r)).drop r.1).take (r.2 - r.1) from
            List.drop_take r.2 r.1 _,
          sortRange_slice l r hr0]
      exact List.sorted_insertionSort fdLE _
    · exact ih (sortRange l r0) (fun q hq => hall q (List.mem_cons_of_mem _ hq))
        hpw_tail r hm

theorem chain_ranges_head_le :
    ∀ (rest : List (Nat × Nat)) (r : Nat × Nat),
      List.Chain' (fun a b : Nat × Nat => a.2 = b.1) (r :: rest) →
      (∀ q ∈ rest, q.1 ≤ q.2) →
      ∀ b ∈ rest, r.2 ≤ b.1 := by
  intro rest
  induction rest with
  | nil => intro r _ _ b hb; cases hb
  | cons h t ih =>
    intro r hch hall b hb
    have hrh : r.2 = h.1 := (List.chain'_cons.mp hch).1
    rcases List.mem_cons.mp hb with he | ht2
    · subst he; omega
    · have hrec := ih h (List.chain'_cons.mp hch).2
        (fun q hq => hall q (List.mem_cons_of_mem _ hq)) b ht2
      have hh := hall h (List.mem_cons_self _ _)
      omega

theorem chain_ranges_pairwise :
    ∀ (rgs : List (Nat × Nat)),
      List.Chain' (fun a b : Nat × Nat => a.2 = b.1) rgs →
      (∀ r ∈ rgs, r.1 ≤ r.2) →
      List.Pairwise (fun a b : Nat × Nat => a.2 ≤ b.1) rgs := by
  intro rgs
  induction rgs with
  | nil => intro _ _; exact List.Pairwise.nil
  | cons r rest ih =>
    intro hch hall
    refine List.pairwise_cons.mpr ⟨?_, ih hch.tail
      (fun q hq => hall q (List.mem_cons_of_mem _ hq))⟩
    exact chain_ranges_head_le rest r hch
      (fun q hq => hall q (List.mem_cons_of_mem _ hq))

theorem loopInv_pushTier (st : LoopState) (ifnids : Finset Nat)
    (hlen : st.fn_ids.length < MAX_RESULTS) (hinv : LoopInv st) :
    LoopInv (pushTier st ifnids) := by
  obtain ⟨hall, hch, hlast, hemp, hhead⟩ := hinv
  unfold LoopInv pushTier
  dsimp only
  refine ⟨?_, ?_, ?_, ?_, ?_⟩
  · intro r hr
    rcases List.mem_append.mp hr with hm | hm
    · obtain ⟨h1, h2, h3⟩ := hall r hm
      refine ⟨h1, ?_, h3⟩
      rw [List.length_append]
      omega
    · rw [List.mem_singleton] at hm
      subst hm
      refine ⟨Nat.le_add_right _ _, ?_, hlen⟩
      rw [List.length_append]
  · rw [List.chain'_append]
    refine ⟨hch, List.chain'_singleton _, ?_⟩
    intro x hx y hy
    rw [List.head?_cons, Option.mem_def] at hy
    have hy2 := Option.some.inj hy
    rw [← hy2]
    exact hlast x (Option.mem_def.mp hx)
  · intro l hl
    rw [List.getLast?_concat] at hl
    have hle := Option.some.inj hl
    rw [← hle, List.length_append]
  · intro habs
    exact absurd habs (by simp)
  · intro h0 hh0
    rw [List.head?_append] at hh0
    cases hr : st.ranges.head? with
    | some hfst =>
      rw [hr] at hh0
      have he0 : h0 = hfst := (Option.some.inj hh0).symm
      subst he0
      exact hhead h0 hr
    | none =>
      rw [hr, Option.none_or] at hh0
      have hnil : st.ranges = [] := List.head?_eq_none_iff.mp hr
      have hfn : st.fn_ids = [] := hemp hnil
      have he0 := Option.some.inj hh0
      rw [← he0]
      show st.fn_ids.length = 0
      rw [hfn]
      rfl

theorem loopInv_init :
    LoopInv { fn_ids := [], fn_ids_set := ∅, ranges := [] } := by
  refine ⟨fun r hr => absurd hr (by simp), List.chain'_nil,
    fun l hl => Option.noConfusion hl, fun _ => rfl,
    fun h0 hh0 => Option.noConfusion hh0⟩

theorem searchLoop_inv (cols : List Column) :
    ∀ (iters : List Nat) (st st' : LoopState),
      searchLoop cols iters st = some st' →
      st.fn_ids.length < MAX_RESULTS → LoopInv st →
      LoopInv st' ∧ st.fn_ids.length ≤ st'.fn_ids.length := by
  intro iters
  induction iters with
  | nil =>
    intro st st' h hlen hinv
    cases h
    exact ⟨hinv, Nat.le_refl _⟩
  | cons i rest ih =>
    intro st st' h hlen hinv
    rw [searchLoop] at h
    cases hit : iterationIds cols i with
    | none => simp only [hit] at h; exact Option.noConfusion h
    | some ifnids =>
      simp only [hit] at h
      have hinv2 : LoopInv (pushTier st ifnids) := loopInv_pushTier st ifnids hlen hinv
      have hlen2 : st.fn_ids.length ≤ (pushTier st ifnids).fn_ids.length := by
        show st.fn_ids.length ≤ (st.fn_ids ++ _).length
        rw [List.length_append]
        exact Nat.le_add_right _ _
      by_cases hbr : MAX_RESULTS ≤ (pushTier st ifnids).fn_ids.length
      · rw [if_pos hbr] at h
        have : pushTier st ifnids = st' := Option.some.inj h
        rw [← this]
        exact ⟨hinv2, hlen2⟩
      · rw [if_neg hbr] at h
        obtain ⟨hi2, hl2⟩ := ih (pushTier st ifnids) st' h (Nat.lt_of_not_le hbr) hinv2
        exact ⟨hi2, Nat.le_trans hlen2 hl2⟩

theorem searchEmit_inv (cols : List Column) (st : LoopState)
    (h : searchEmit cols = some st) : LoopInv st :=
  (searchLoop_inv cols _ _ st h (by decide) loopInv_init).1

theorem adjustRanges_props (st : LoopState) (hinv : LoopInv st) :
    (∀ r ∈ adjustRanges st.ranges (min st.fn_ids.length MAX_RESULTS),
        r.1 ≤ r.2 ∧ r.2 ≤ min st.fn_ids.length MAX_RESULTS) ∧
    List.Pairwise (fun a b : Nat × Nat => a.2 ≤ b.1)
      (adjustRanges st.ranges (min st.fn_ids.length MAX_RESULTS)) ∧
    List.Chain' (fun a b : Nat × Nat => a.2 = b.1)
      (adjustRanges st.ranges (min st.fn_ids.length MAX_RESULTS)) ∧
    (∀ h0, (adjustRanges st.ranges (min st.fn_ids.length MAX_RESULTS)).head? =
        some h0 → h0.1 = 0) ∧
    (∀ l, (adjustRanges st.ranges (min st.fn_ids.length MAX_RESULTS)).getLast? =
        some l → l.2 = min st.fn_ids.length MAX_RESULTS) := by
  obtain ⟨hall, hch, hlast, hemp, hhead⟩ := hinv
  unfold adjustRanges
  cases hl : st.ranges.getLast? with
  | none =>
    have hnil : st.ranges = [] := List.getLast?_eq_none_iff.mp hl
    rw [hnil]
    exact ⟨fun r hr => absurd hr (by simp), List.Pairwise.nil, List.chain'_nil,
      fun h0 hh0 => Option.noConfusion hh0, fun l hl2 => Option.noConfusion hl2⟩
  | some last =>
    have hdecomp : st.ranges.dropLast ++ [last] = st.ranges :=
      List.dropLast_append_getLast? last (Option.mem_def.mpr hl)
    have hlast2 : last.2 = st.fn_ids.length := hlast last hl
    have hlastmem : last ∈ st.ranges := by
      rw [← hdecomp]
      exact List.mem_append_right _ (List.mem_singleton.mpr rfl)
    obtain ⟨hl1, hl2, hl3⟩ := hall last hlastmem
    have hle : last.1 ≤ min st.fn_ids.length MAX_RESULTS := by omega
    have hpw0 : List.Pairwise (fun a b : Nat × Nat => a.2 ≤ b.1) st.ranges :=
      chain_ranges_pairwise st.ranges hch (fun r hr => (hall r hr).1)
    rw [← hdecomp] at hpw0 hch
    have hpwsplit := List.pairwise_append.mp hpw0
    have hchsplit := List.chain'_append.mp hch
    have hcross : ∀ a ∈ st.ranges.dropLast, a.2 ≤ last.1 := fun a ha =>
      hpwsplit.2.2 a ha last (List.mem_singleton.mpr rfl)
    have hmem_dl : ∀ r ∈ st.ranges.dropLast,
        r.1 ≤ r.2 ∧ r.2 ≤ min st.fn_ids.length MAX_RESULTS := by
      intro r hr
      have hrmem : r ∈ st.ranges := by
        rw [← hdecomp]
        exact List.mem_append_left _ hr
      obtain ⟨h1, h2, h3⟩ := hall r hrmem
      have h4 := hcross r hr
      exact ⟨h1, by omega⟩
    refine ⟨?_, ?_, ?_, ?_, ?_⟩
    · intro r hr
      rcases List.mem_append.mp hr with hm | hm
      · exact hmem_dl r hm
      · rw [List.mem_singleton] at hm
        subst hm
        exact ⟨hle, Nat.le_refl _⟩
    · rw [List.pairwise_append]
      refine ⟨hpwsplit.1, List.pairwise_singleton _ _, ?_⟩
      intro a ha b hb
      rw [List.mem_singleton] at hb
      subst hb
      exact hcross a ha
    · rw [List.chain'_append]
      refine ⟨hchsplit.1, List.chain'_singleton _, ?_⟩
      intro x hx y hy
      rw [List.head?_cons, Option.mem_def] at hy
      have hy2 := Option.some.inj hy
      rw [← hy2]
      exact hchsplit.2.2 x hx last (by rw [List.head?_cons, Option.mem_def])
    · intro h0 hh0
      rw [List.head?_append] at hh0
      cases hdj : st.ranges.dropLast.head? with
      | some hfst =>
        rw [hdj] at hh0
        have he0 : h0 = hfst := (Option.some.inj hh0).symm
        subst he0
        have hho : st.ranges.head? = some h0 := by
          rw [← hdecomp, List.head?_append, hdj]
          rfl
        exact hhead h0 hho
      | none =>
        rw [hdj, Option.none_or] at hh0
        have hdl_nil : st.ranges.dropLast = [] := List.head?_eq_none_iff.mp hdj
        have hranges : st.ranges = [last] := by
          rw [← hdecomp, hdl_nil]
          rfl
        have hl1_0 : last.1 = 0 := hhead last (by rw [hranges]; rfl)
        have he0 : h0 = (last.1, min st.fn_ids.length MAX_RESULTS) :=
          (Option.some.inj hh0).symm
        rw [he0]
        exact hl1_0
    · intro l2 hl2mem
      rw [List.getLast?_concat] at hl2mem
      have : l2 = (last.1, min st.fn_ids.length MAX_RESULTS) :=
        (Option.some.inj hl2mem).symm
      rw [this]

theorem searchWithCandidates_decomp (db : Db) (cols : List Column)
    (res : List FnDetail) (h : searchWithCandidates db cols = some res) :
    ∃ st ds, searchEmit cols = some st ∧
      fetchDetails db (st.fn_ids.take (min st.fn_ids.length MAX_RESULTS)) = some ds ∧
      res = (adjustRanges st.ranges (min st.fn_ids.length MAX_RESULTS)).foldl
        sortRange ds := by
  unfold searchWithCandidates at h
  cases he : searchEmit cols with
  | none => simp only [he] at h; exact Option.noConfusion h
  | some st =>
    simp only [he] at h
    cases hf : fetchDetails db (st.fn_ids.take (min st.fn_ids.length MAX_RESULTS)) with
    | none => simp only [hf] at h; exact Option.noConfusion h
    | some ds =>
      simp only [hf] at h
      exact ⟨st, ds, rfl, hf, (Option.some.inj h).symm⟩

theorem searchWithCandidates_length (db : Db) (cols : List Column)
    (res : List FnDetail) (st : LoopState)
    (h : searchWithCandidates db cols = some res)
    (hst : searchEmit cols = some st) :
    res.length = min st.fn_ids.length MAX_RESULTS := by
  obtain ⟨st2, ds, he2, hf, hres⟩ := searchWithCandidates_decomp db cols res h
  have hst2 : st2 = st := by
    rw [hst] at he2
    exact (Option.some.inj he2).symm
  rw [hst2] at hf hres
  have hinv := searchEmit_inv cols st hst
  have hprops := adjustRanges_props st hinv
  rw [hres, foldl_sortRange_length _ ds (fun r hr => (hprops.1 r hr).1),
      fetchDetails_length db _ ds hf, List.length_take]
  omega

/-- C6: every result list of `search` has length at most `MAX_RESULTS = 500`,
and when the tier loop emitted more than `MAX_RESULTS` ids, the truncation of
the last tier makes the returned length exactly `MAX_RESULTS`. -/
theorem search_bounded_by_max_results (db : Db) (fr fp : String → List String)
    (ps : Option (List String)) (rs : Option String) (res : List FnDetail)
    (h : search db fr fp ps rs = some res) :
    res.length ≤ MAX_RESULTS ∧
    (∀ st, searchEmit (searchCols db fr fp ps rs) = some st →
      MAX_RESULTS < st.fn_ids.length → res.length = MAX_RESULTS) := by
  constructor
  · obtain ⟨st, ds, he, hf, hres⟩ :=
      searchWithCandidates_decomp db (searchCols db fr fp ps rs) res h
    have := searchWithCandidates_length db (searchCols db fr fp ps rs) res st h he
    omega
  · intro st hst hgt
    have := searchWithCandidates_length db (searchCols db fr fp ps rs) res st h hst
    omega

/-- C6 witness: a concrete query on a one-function store. -/
theorem search_bounded_by_max_results_witness :
    ([] : List FnDetail).length ≤ MAX_RESULTS ∧
    (∀ st, searchEmit (searchCols dbOne fuzzyU32 fuzzyU32 (some ["u32"])
        (some "u32")) = some st →
      MAX_RESULTS < st.fn_ids.length → ([] : List FnDetail).length = MAX_RESULTS) :=
  search_bounded_by_max_results dbOne fuzzyU32 fuzzyU32 (some ["u32"]) (some "u32")
    [] rfl

/-- C7: in every `search` result, the details of each tier (the index ranges
recorded by the loop, with the last one truncated) are sorted by
`(krate, s)` lexicographically, and the tiers tile the result in iteration
order: consecutive ranges abut, the first starts at 0, and the last ends at
the result's length. -/
theorem search_tiers_sorted (db : Db) (fr fp : String → List String)
    (ps : Option (List String)) (rs : Option String) (res : List FnDetail)
    (st : LoopState)
    (h : search db fr fp ps rs = some res)
    (hst : searchEmit (searchCols db fr fp ps rs) = some st) :
    (∀ r ∈ adjustRanges st.ranges (min st.fn_ids.length MAX_RESULTS),
        List.Sorted fdLE ((res.drop r.1).take (r.2 - r.1))) ∧
    List.Chain' (fun a b : Nat × Nat => a.2 = b.1)
      (adjustRanges st.ranges (min st.fn_ids.length MAX_RESULTS)) ∧
    (∀ h0, (adjustRanges st.ranges (min st.fn_ids.length MAX_RESULTS)).head? =
        some h0 → h0.1 = 0) ∧
    (∀ l, (adjustRanges st.ranges (min st.fn_ids.length MAX_RESULTS)).getLast? =
        some l → l.2 = res.length) := by
  obtain ⟨st2, ds, he, hf, hres⟩ :=
    searchWithCandidates_decomp db (searchCols db fr fp ps rs) res h
  have hst2 : st2 = st := by
    rw [hst] at he
    exact (Option.some.inj he).symm
  rw [hst2] at hf hres
  have hinv := searchEmit_inv _ st hst
  obtain ⟨hall, hpw, hch, hhead, hlast⟩ := adjustRanges_props st hinv
  have hlen := searchWithCandidates_length db (searchCols db fr fp ps rs) res st h hst
  refine ⟨?_, hch, hhead, ?_⟩
  · intro r hr
    rw [hres]
    exact foldl_sortRange_sorted _ ds (fun q hq => (hall q hq).1) hpw r hr
  · intro l hl
    rw [hlen]
    exact hlast l hl

/-- C7 witness: a concrete query on a one-function store (the loop emits no
tier because of the `1..D` iteration, so the adjusted range list is empty and
the properties hold trivially — but the theorem is applied honestly). -/
theorem search_tiers_sorted_witness :
    (∀ r ∈ adjustRanges (LoopState.mk [] ∅ []).ranges
        (min (LoopState.mk [] ∅ []).fn_ids.length MAX_RESULTS),
        List.Sorted fdLE ((([] : List FnDetail).drop r.1).take (r.2 - r.1))) ∧
    List.Chain' (fun a b : Nat × Nat => a.2 = b.1)
      (adjustRanges (LoopState.mk [] ∅ []).ranges
        (min (LoopState.mk [] ∅ []).fn_ids.length MAX_RESULTS)) ∧
    (∀ h0, (adjustRanges (LoopState.mk [] ∅ []).ranges
        (min (LoopState.mk [] ∅ []).fn_ids.length MAX_RESULTS)).head? = some h0 →
        h0.1 = 0) ∧
    (∀ l, (adjustRanges (LoopState.mk [] ∅ []).ranges
        (min (LoopState.mk [] ∅ []).fn_ids.length MAX_RESULTS)).getLast? = some l →
        l.2 = ([] : List FnDetail).length) :=
  search_tiers_sorted dbOne fuzzyU32 fuzzyU32 (some ["u32"]) (some "u32") []
    (LoopState.mk [] ∅ []) rfl rfl

/-! ## C9: tokenizer idempotence -/

theorem rds_sp_sp (rest : List Char) :
    replaceDoubleSpace (' ' :: ' ' :: rest) = ' ' :: replaceDoubleSpace rest := by
  rw [replaceDoubleSpace, if_pos ⟨rfl, rfl⟩]

theorem rds_cons_cons (c d : Char) (rest : List Char) (h : ¬(c = ' ' ∧ d = ' ')) :
    replaceDoubleSpace (c :: d :: rest) = c :: replaceDoubleSpace (d :: rest) := by
  rw [replaceDoubleSpace, if_neg h]

theorem squeeze_sp_sp (rest : List Char) :
    squeezeSpaces (' ' :: ' ' :: rest) = squeezeSpaces (' ' :: rest) := by
  rw [squeezeSpaces, if_pos ⟨rfl, rfl⟩]

theorem squeeze_cons_cons (c d : Char) (rest : List Char) (h : ¬(c = ' ' ∧ d = ' ')) :
    squeezeSpaces (c :: d :: rest) = c :: squeezeSpaces (d :: rest) := by
  rw [squeezeSpaces, if_neg h]

theorem rds_length (s : List Char) :
    (replaceDoubleSpace s).length ≤ s.length := by
  induction s using replaceDoubleSpace.induct with
  | case1 => exact Nat.le_refl _
  | case2 c => exact Nat.le_refl _
  | case3 c d rest hcd ih =>
    obtain ⟨h1, h2⟩ := hcd
    subst h1
    subst h2
    rw [rds_sp_sp]
    simp only [List.length_cons]
    omega
  | case4 c d rest hcd ih =>
    rw [rds_cons_cons c d rest hcd]
    simp only [List.length_cons] at ih ⊢
    omega

theorem rds_progress (s : List Char) (h : replaceDoubleSpace s ≠ s) :
    (replaceDoubleSpace s).length < s.length := by
  induction s using replaceDoubleSpace.induct with
  | case1 => exact absurd rfl h
  | case2 c => exact absurd rfl h
  | case3 c d rest hcd ih =>
    obtain ⟨h1, h2⟩ := hcd
    subst h1
    subst h2
    rw [rds_sp_sp]
    have := rds_length rest
    simp only [List.length_cons]
    omega
  | case4 c d rest hcd ih =>
    rw [rds_cons_cons c d rest hcd] at h ⊢
    have hne : replaceDoubleSpace (d :: rest) ≠ d :: rest := by
      intro he
      exact h (by rw [he])
    have hlt := ih hne
    simp only [List.length_cons] at hlt ⊢
    omega

theorem rds_shape (d : Char) (xs : List Char) :
    ∃ t, replaceDoubleSpace (d :: xs) = d :: t := by
  cases xs with
  | nil => exact ⟨[], rfl⟩
  | cons e rest =>
    by_cases h : d = ' ' ∧ e = ' '
    · obtain ⟨h1, h2⟩ := h
      subst h1
      subst h2
      exact ⟨replaceDoubleSpace rest, rds_sp_sp rest⟩
    · exact ⟨replaceDoubleSpace (e :: rest), rds_cons_cons d e rest h⟩

theorem squeeze_rds (s : List Char) :
    squeezeSpaces (replaceDoubleSpace s) = squeezeSpaces s ∧
    squeezeSpaces (' ' :: replaceDoubleSpace s) = squeezeSpaces (' ' :: s) := by
  induction s using replaceDoubleSpace.induct with
  | case1 => exact ⟨rfl, rfl⟩
  | case2 c => exact ⟨rfl, rfl⟩
  | case3 c d rest hcd ih =>
    obtain ⟨h1, h2⟩ := hcd
    subst h1
    subst h2
    rw [rds_sp_sp]
    constructor
    · rw [ih.2, squeeze_sp_sp]
    · rw [squeeze_sp_sp, ih.2, squeeze_sp_sp, squeeze_sp_sp]
  | case4 c d rest hcd ih =>
    rw [rds_cons_cons c d rest hcd]
    obtain ⟨t, ht⟩ := rds_shape d rest
    have hA : squeezeSpaces (c :: replaceDoubleSpace (d :: rest)) =
        squeezeSpaces (c :: d :: rest) := by
      rw [ht, squeeze_cons_cons c d t hcd, ← ht, ih.1,
        squeeze_cons_cons c d rest hcd]
    refine ⟨hA, ?_⟩
    by_cases hc : c = ' '
    · subst hc
      rw [squeeze_sp_sp, ih.2, squeeze_sp_sp]
    · have hcond : ¬(' ' = ' ' ∧ c = ' ') := fun hp => hc hp.2
      rw [squeeze_cons_cons ' ' c _ hcond, hA,
        squeeze_cons_cons ' ' c _ hcond]

theorem rds_fix_squeeze (s : List Char) (h : replaceDoubleSpace s = s) :
    squeezeSpaces s = s := by
  induction s using replaceDoubleSpace.induct with
  | case1 => rfl
  | case2 c => rfl
  | case3 c d rest hcd ih =>
    obtain ⟨h1, h2⟩ := hcd
    subst h1
    subst h2
    rw [rds_sp_sp] at h
    exfalso
    have hlen := congrArg List.length h
    simp only [List.length_cons] at hlen
    have hle := rds_length rest
    omega
  | case4 c d rest hcd ih =>
    rw [rds_cons_cons c d rest hcd] at h
    have h2 : replaceDoubleSpace (d :: rest) = d :: rest := by
      injection h
    rw [squeeze_cons_cons c d rest hcd, ih h2]

theorem collapseFuel_eq_squeezeSpaces :
    ∀ (n : Nat) (s : List Char), s.length ≤ n →
      collapseSpacesFuel n s = squeezeSpaces s := by
  intro n
  induction n with
  | zero =>
    intro s hs
    have hnil : s = [] := List.length_eq_zero.mp (Nat.le_zero.mp hs)
    subst hnil
    rfl
  | succ n ih =>
    intro s hs
    by_cases hfix : replaceDoubleSpace s = s
    · rw [collapseSpacesFuel, if_pos hfix]
      exact (rds_fix_squeeze s hfix).symm
    · rw [collapseSpacesFuel, if_neg hfix]
      have hlt := rds_progress s hfix
      rw [ih _ (by omega)]
      exact (squeeze_rds s).1

theorem sq_not_space (b : Bool) (d : Char) (hd : ¬ d = ' ') (xs : List Char) :
    sq b (d :: xs) = d :: sq false xs := by
  rw [sq, if_neg hd]

theorem sq_space_true (xs : List Char) : sq true (' ' :: xs) = sq true xs := by
  rw [sq, if_pos rfl]
  rfl

theorem sq_space_false (xs : List Char) :
    sq false (' ' :: xs) = ' ' :: sq true xs := by
  rw [sq, if_pos rfl]
  rfl

theorem squeeze_eq_sq (s : List Char) :
    squeezeSpaces s = sq false s ∧
    squeezeSpaces (' ' :: s) = ' ' :: sq true s := by
  induction s using squeezeSpaces.induct with
  | case1 => exact ⟨rfl, rfl⟩
  | case2 c =>
    by_cases hc : c = ' '
    · subst hc
      constructor
      · rw [sq_space_false]
        rfl
      · rw [squeeze_sp_sp, sq_space_true]
        rfl
    · constructor
      · rw [sq_not_space false c hc]
        rfl
      · rw [squeeze_cons_cons ' ' c [] (fun hp => hc hp.2), sq_not_space true c hc]
        rfl
  | case3 c d rest hcd ih =>
    obtain ⟨h1, h2⟩ := hcd
    subst h1
    subst h2
    constructor
    · rw [ih.2]
      simp only [sq_space_true, sq_space_false]
    · rw [squeeze_sp_sp, ih.2]
      simp only [sq_space_true, sq_space_false]
  | case4 c d rest hcd ih =>
    have hA : squeezeSpaces (c :: d :: rest) = sq false (c :: d :: rest) := by
      rw [squeeze_cons_cons c d rest hcd, ih.1]
      by_cases hc : c = ' '
      · subst hc
        have hd : ¬ d = ' ' := fun hdd => hcd ⟨rfl, hdd⟩
        rw [sq_space_false, sq_not_space true d hd, sq_not_space false d hd]
      · rw [sq_not_space false c hc]
    refine ⟨hA, ?_⟩
    by_cases hc : c = ' '
    · subst hc
      rw [squeeze_sp_sp, ih.2, sq_space_true]
    · rw [squeeze_cons_cons ' ' c _ (fun hp => hc hp.2), hA,
        sq_not_space true c hc, sq_not_space false c hc]

theorem sq_append :
    ∀ (x : List Char) (b : Bool) (y : List Char),
      sq b (x ++ y) = sq b x ++ sq (afterSp b x) y := by
  intro x
  induction x with
  | nil => intro b y; rfl
  | cons c rest ih =>
    intro b y
    by_cases hc : c = ' '
    · subst hc
      have hafter : afterSp b (' ' :: rest) = afterSp true rest := by
        rw [afterSp]
        norm_num
      cases b
      · rw [show ((' ' :: rest) ++ y) = ' ' :: (rest ++ y) from rfl,
            sq_space_false, sq_space_false, ih true y, hafter, List.cons_append]
      · rw [show ((' ' :: rest) ++ y) = ' ' :: (rest ++ y) from rfl,
            sq_space_true, sq_space_true, ih true y, hafter]
    · have hafter : afterSp b (c :: rest) = afterSp false rest := by
        rw [afterSp]
        simp [hc]
      rw [show ((c :: rest) ++ y) = c :: (rest ++ y) from rfl,
          sq_not_space b c hc, sq_not_space b c hc, ih false y, hafter,
          List.cons_append]

theorem replaceChar_append (c : Char) (r : List Char) :
    ∀ (x y : List Char),
      replaceChar c r (x ++ y) = replaceChar c r x ++ replaceChar c r y := by
  intro x
  induction x with
  | nil => intro y; rfl
  | cons d rest ih =>
    intro y
    rw [show ((d :: rest) ++ y) = d :: (rest ++ y) from rfl]
    rw [replaceChar, replaceChar, ih y]
    by_cases hd : d = c
    · rw [if_pos hd, if_pos hd, List.append_assoc]
    · rw [if_neg hd, if_neg hd, List.cons_append]

theorem expandSpecials_append (x y : List Char) :
    expandSpecials (x ++ y) = expandSpecials x ++ expandSpecials y := by
  unfold expandSpecials
  rw [replaceChar_append, replaceChar_append, replaceChar_append,
      replaceChar_append, replaceChar_append]

theorem special_ne_space (d : Char) (h : isSpecialChar d = true) : ¬ d = ' ' := by
  intro he
  subst he
  exact absurd h (by decide)

theorem expandSpecials_single (d : Char) :
    expandSpecials [d] = if isSpecialChar d then [' ', d, ' '] else [d] := by
  by_cases h1 : d = '<'
  · subst h1; decide
  · by_cases h2 : d = '>'
    · subst h2; decide
    · by_cases h3 : d = '['
      · subst h3; decide
      · by_cases h4 : d = ']'
        · subst h4; decide
        · by_cases h5 : d = '&'
          · subst h5; decide
          · have hs : isSpecialChar d = false := by
              simp [isSpecialChar, h1, h2, h3, h4, h5]
            rw [hs]
            simp only [Bool.false_eq_true, if_false]
            unfold expandSpecials
            simp [replaceChar, h1, h2, h3, h4, h5]

theorem tok_special (b : Bool) (d : Char) (rest : List Char)
    (hsp : isSpecialChar d = true) :
    tok b (d :: rest) = (if b then [d, ' '] else [' ', d, ' ']) ++ tok true rest := by
  rw [tok, if_pos hsp]

theorem tok_space (b : Bool) (rest : List Char) :
    tok b (' ' :: rest) = (if b then [] else [' ']) ++ tok true rest := by
  rw [tok, if_neg (by decide : ¬isSpecialChar ' ' = true)]
  rfl

theorem tok_other (b : Bool) (d : Char) (rest : List Char)
    (hsp : ¬ isSpecialChar d = true) (hd : ¬ d = ' ') :
    tok b (d :: rest) = d :: tok false rest := by
  rw [tok, if_neg hsp, if_neg hd]

theorem sq_expandSpecials_eq_tok :
    ∀ (s : List Char) (b : Bool), sq b (expandSpecials s) = tok b s := by
  intro s
  induction s with
  | nil => intro b; rfl
  | cons d rest ih =>
    intro b
    have hE : expandSpecials (d :: rest) =
        expandSpecials [d] ++ expandSpecials rest := by
      rw [show (d :: rest) = [d] ++ rest from rfl, expandSpecials_append]
    rw [hE, sq_append, expandSpecials_single]
    by_cases hsp : isSpecialChar d = true
    · have hd := special_ne_space d hsp
      have hafter : afterSp b [' ', d, ' '] = true := by simp [afterSp]
      rw [if_pos hsp, hafter, ih true, tok_special b d rest hsp]
      cases b
      · rw [sq_space_false, sq_not_space true d hd, sq_space_false]
        rfl
      · rw [sq_space_true, sq_not_space true d hd, sq_space_false]
        rfl
    · rw [if_neg hsp]
      by_cases hd : d = ' '
      · subst hd
        have hafter : afterSp b [' '] = true := by simp [afterSp]
        rw [hafter, ih true, tok_space b rest]
        cases b
        · rw [sq_space_false]
          rfl
        · rw [sq_space_true]
          rfl
      · have hafter : afterSp b [d] = false := by simp [afterSp, hd]
        rw [hafter, ih false, tok_other b d rest hsp hd, sq_not_space b d hd]
        rfl

theorem tok_idem : ∀ (s : List Char) (b : Bool), tok b (tok b s) = tok b s := by
  intro s
  induction s with
  | nil => intro b; rfl
  | cons d rest ih =>
    intro b
    by_cases hsp : isSpecialChar d = true
    · have hd := special_ne_space d hsp
      cases b
      · rw [tok_special false d rest hsp, if_neg (by decide : ¬false = true)]
        rw [show ([' ', d, ' '] ++ tok true rest) =
              ' ' :: d :: ' ' :: tok true rest from rfl]
        rw [tok_space false, if_neg (by decide : ¬false = true)]
        rw [tok_special true d _ hsp, if_pos rfl]
        rw [tok_space true, if_pos rfl]
        rw [ih true]
        rfl
      · rw [tok_special true d rest hsp, if_pos rfl]
        rw [show ([d, ' '] ++ tok true rest) = d :: ' ' :: tok true rest from rfl]
        rw [tok_special true d _ hsp, if_pos rfl]
        rw [tok_space true, if_pos rfl]
        rw [ih true]
        rfl
    · by_cases hd : d = ' '
      · subst hd
        cases b
        · rw [tok_space false rest, if_neg (by decide : ¬false = true)]
          rw [show ([' '] ++ tok true rest) = ' ' :: tok true rest from rfl]
          rw [tok_space false, if_neg (by decide : ¬false = true)]
          rw [ih true]
          rfl
        · rw [tok_space true rest, if_pos rfl]
          rw [show ([] ++ tok true rest) = tok true rest from rfl]
          exact ih true
      · rw [tok_other b d rest hsp hd, tok_other b d _ hsp hd, ih false]

/-- C9: the type tokenizer of `load_text_search` is idempotent:
`tokenize_type (tokenize_type s) = tokenize_type s` for every string. -/
theorem tokenize_type_idempotent (s : String) :
    tokenize_type (tokenize_type s) = tokenize_type s := by
  have h1 : ∀ u : String, tokenize_type u = String.mk (tok false u.toList) := by
    intro u
    unfold tokenize_type
    rw [collapseFuel_eq_squeezeSpaces _ _ (Nat.le_refl _),
        (squeeze_eq_sq (expandSpecials u.toList)).1,
        sq_expandSpecials_eq_tok]
  rw [h1 s, h1 (String.mk (tok false s.toList)),
      show (String.mk (tok false s.toList)).toList = tok false s.toList from rfl,
      tok_idem]

/-- C5 witness: an ingest / purge / re-ingest run from the empty store. -/
theorem fn_ids_never_reused_witness :
    (∀ i ∈ runAssigned emptyDb opsReuse,
        i < ((runOps emptyDb opsReuse).getD emptyDb).next_fn_id) ∧
    (runAssigned emptyDb opsReuse).Nodup ∧
    (∀ id, ((((runOps emptyDb opsReuse).getD emptyDb).fnT id).isSome = true) →
        id < ((runOps emptyDb opsReuse).getD emptyDb).next_fn_id) :=
  fn_ids_never_reused emptyDb opsReuse ((runOps emptyDb opsReuse).getD emptyDb)
    (fun id hid => absurd hid (by simp [emptyDb])) rfl

end Reeves
